import Mathlib

/-!
# IPFS storage driver (`registry/storage/driver/ipfs/driver.go`)

A shallow embedding of the driver and of the bubble-publish protocol.

* Go strings are lists of characters (`Str`), byte slices are lists of bytes.
* The IPFS shell the driver talks to is a record of state-passing functions
  (`Shell σ`), so every outcome of every store call is covered.  Each call the
  driver issues is recorded, newest first, in the `log` of a `World`.
* The `for` loop of `addBubblePublish` takes a fuel argument, one unit per
  iteration; `none` means the loop has not returned within the fuel.
* `Store` is a model of the content store itself: a hash-consed table of
  immutable objects and a table of published names.
-/

namespace Ipfs

/-- Go `string`. -/
abbrev Str := List Char

/-- Go `[]byte`, and the content of an `io.Reader`. -/
abbrev Bytes := List UInt8

/-! ## String and path helpers of the Go standard library -/

/-- The string `"/ipns"`. -/
def ipnsDir : Str := ['/', 'i', 'p', 'n', 's']

/-- The string `"/ipns/"`. -/
def ipnsPrefix : Str := ['/', 'i', 'p', 'n', 's', '/']

/-- The string `"local"`. -/
def localMarker : Str := ['l', 'o', 'c', 'a', 'l']

/-- The string `"/ipns/local/"`. -/
def ipnsLocalPrefix : Str := ipnsPrefix ++ localMarker ++ ['/']

/-- The string `"no link named"`. -/
def noLinkNamed : Str := ['n', 'o', ' ', 'l', 'i', 'n', 'k', ' ', 'n', 'a', 'm', 'e', 'd']

/-- The string `"merkledag: not found"`. -/
def merkledagNotFound : Str :=
  ['m', 'e', 'r', 'k', 'l', 'e', 'd', 'a', 'g', ':', ' ', 'n', 'o', 't', ' ', 'f', 'o', 'u', 'n', 'd']

/-- The string `"rm-link"`. -/
def rmLink : Str := ['r', 'm', '-', 'l', 'i', 'n', 'k']

/-- The string `"add-link"`. -/
def addLink : Str := ['a', 'd', 'd', '-', 'l', 'i', 'n', 'k']

/-- The string `"unixfs-dir"`. -/
def unixfsDir : Str := ['u', 'n', 'i', 'x', 'f', 's', '-', 'd', 'i', 'r']

/-- The string `"Directory"`. -/
def directoryType : Str := ['D', 'i', 'r', 'e', 'c', 't', 'o', 'r', 'y']

/-- The string `"File"`. -/
def fileType : Str := ['F', 'i', 'l', 'e']

/-- Go `strings.HasPrefix`. -/
def HasPrefix (s pre : Str) : Bool := pre.isPrefixOf s

/-- Go `strings.TrimRight(s, "/")`: drop every trailing slash. -/
def TrimRightSlash (s : Str) : Str := s.rdropWhile (fun c => c == '/')

/-- Go `strings.Replace(s, old, new, 1)`: replace the first occurrence of `old`. -/
def ReplaceFirst : Str → Str → Str → Str
  | [], old, new => if old = [] then new else []
  | c :: cs, old, new =>
    if old.isPrefixOf (c :: cs) then new ++ (c :: cs).drop old.length
    else c :: ReplaceFirst cs old new

/-- Go `path.Split`: split right after the final slash, `path = dir ++ file`. -/
def Split (path : Str) : Str × Str :=
  (path.rdropWhile (fun c => c != '/'), path.rtakeWhile (fun c => c != '/'))

/-- The string `/s1/s2/.../sn` of the elements `s1 … sn`. -/
def mkPath : List Str → Str
  | [] => []
  | s :: ss => '/' :: (s ++ mkPath ss)

/-- The elements of a path: the pieces between slashes (`strings.Split(path, "/")`). -/
def splitSlash : Str → List Str
  | [] => [[]]
  | c :: cs =>
    if c = '/' then [] :: splitSlash cs
    else
      match splitSlash cs with
      | [] => [[c]]
      | s :: ss => (c :: s) :: ss

/-- The element loop of Go `path.Clean`.  `out` is the output buffer as a stack
of elements, last written first.  Empty and `.` elements are skipped; `..` pops
the last element when there is one to backtrack over, is kept at the front of
an unrooted path, and is dropped at the front of a rooted one. -/
def cleanElems (rooted : Bool) : List Str → List Str → List Str
  | [], out => out.reverse
  | e :: es, out =>
    if e = [] ∨ e = ['.'] then cleanElems rooted es out
    else if e = ['.', '.'] then
      match out with
      | top :: rest =>
        if top ≠ ['.', '.'] then cleanElems rooted es rest
        else if rooted then cleanElems rooted es out
        else cleanElems rooted es (e :: out)
      | [] =>
        if rooted then cleanElems rooted es []
        else cleanElems rooted es [e]
    else cleanElems rooted es (e :: out)

/-- Go `path.Clean`. -/
def Clean (path : Str) : Str :=
  match path with
  | [] => ['.']
  | c :: _ =>
    let rooted := c == '/'
    let out := cleanElems rooted (splitSlash path) []
    if rooted then (if out = [] then ['/'] else mkPath out)
    else if out = [] then ['.'] else (mkPath out).tail

/-- Go `path.Join`: the non-empty elements joined by slashes, then cleaned. -/
def Join (elem : List Str) : Str :=
  match elem.filter (fun e => e ≠ []) with
  | [] => []
  | e :: es => Clean (e ++ mkPath es)

/-- Go `io.CopyN(dst, src, n)`: the bytes copied, their count, and the error. -/
def CopyN (src : Bytes) (n : Int) : Bytes × Int × Bool :=
  let copied : Bytes := if n ≤ 0 then [] else src.take n.toNat
  let written : Int := copied.length
  if written = n then (copied, n, false)
  else if written < n then (copied, written, true)
  else (copied, written, false)

/-! ## The shell interface and driver errors -/

/-- An error as the driver returns it. -/
inductive DriverError where
  /-- `storagedriver.PathNotFoundError{Path: path}`. -/
  | pathNotFound (path : Str)
  /-- `storagedriver.ErrUnsupportedMethod`. -/
  | unsupportedMethod
  /-- `io.EOF`. -/
  | eof
  /-- An error of the shell, passed on unchanged; `msg` is its `Error()` text. -/
  | store (msg : Str)
  deriving DecidableEq, Repr

/-- A link of a `FileList` answer. -/
structure LsLink where
  Name : Str
  Hash : Str
  Size : Nat
  Typ : Str
  deriving DecidableEq, Repr

/-- The answer of `FileList`. -/
structure LsObject where
  Hash : Str
  Size : Nat
  Typ : Str
  Links : List LsLink
  deriving DecidableEq, Repr

/-- The calls of the IPFS shell the driver uses, over a store state `σ`.  A call
returns its answer, or the text of its error, and the next state. -/
structure Shell (σ : Type) where
  ID : σ → Except Str Str × σ
  Cat : Str → σ → Except Str Bytes × σ
  Add : Bytes → σ → Except Str Str × σ
  FileList : Str → σ → Except Str LsObject × σ
  Patch : Str → Str → List Str → σ → Except Str Str × σ
  NewObject : Str → σ → Except Str Str × σ
  Publish : Str → Str → σ → Except Str Unit × σ

/-- A store call together with what it returned. -/
inductive Event where
  | id (r : Except Str Str)
  | cat (path : Str) (r : Except Str Bytes)
  | add (content : Bytes) (r : Except Str Str)
  | fileList (path : Str) (r : Except Str LsObject)
  | patch (root action : Str) (args : List Str) (r : Except Str Str)
  | newObject (template : Str) (r : Except Str Str)
  | publish (name hash : Str) (r : Except Str Unit)

/-- The store state and the calls issued so far, newest first. -/
structure World (σ : Type) where
  st : σ
  log : List Event

section Calls
variable {σ : Type} (sh : Shell σ)

def callID (w : World σ) : Except Str Str × World σ :=
  ((sh.ID w.st).1, ⟨(sh.ID w.st).2, Event.id (sh.ID w.st).1 :: w.log⟩)

def callCat (path : Str) (w : World σ) : Except Str Bytes × World σ :=
  ((sh.Cat path w.st).1, ⟨(sh.Cat path w.st).2, Event.cat path (sh.Cat path w.st).1 :: w.log⟩)

def callAdd (content : Bytes) (w : World σ) : Except Str Str × World σ :=
  ((sh.Add content w.st).1, ⟨(sh.Add content w.st).2, Event.add content (sh.Add content w.st).1 :: w.log⟩)

def callFileList (path : Str) (w : World σ) : Except Str LsObject × World σ :=
  ((sh.FileList path w.st).1, ⟨(sh.FileList path w.st).2, Event.fileList path (sh.FileList path w.st).1 :: w.log⟩)

def callPatch (root action : Str) (args : List Str) (w : World σ) : Except Str Str × World σ :=
  ((sh.Patch root action args w.st).1, ⟨(sh.Patch root action args w.st).2, Event.patch root action args (sh.Patch root action args w.st).1 :: w.log⟩)

def callNewObject (template : Str) (w : World σ) : Except Str Str × World σ :=
  ((sh.NewObject template w.st).1, ⟨(sh.NewObject template w.st).2, Event.newObject template (sh.NewObject template w.st).1 :: w.log⟩)

def callPublish (name hash : Str) (w : World σ) : Except Str Unit × World σ :=
  ((sh.Publish name hash w.st).1, ⟨(sh.Publish name hash w.st).2, Event.publish name hash (sh.Publish name hash w.st).1 :: w.log⟩)

end Calls

/-! ## The driver -/

/-- The `driver` struct: its storage root (the shell is passed separately). -/
structure driver where
  root : Str
  deriving DecidableEq, Repr

/-- The fields of `storagedriver.FileInfoFields`; `ModTime` is the zero time. -/
structure FileInfoFields where
  Path : Str
  Size : Int
  ModTime : Nat
  IsDir : Bool
  deriving DecidableEq, Repr

section Driver
variable {σ : Type} (sh : Shell σ)

/-- The function `New`: resolve a `/ipns/local/` root through the shell's identity. -/
def New (_addr : Str) (root : Str) (w : World σ) : Option driver × World σ :=
  if HasPrefix root ipnsLocalPrefix then
    match callID sh w with
    | (.error _, w1) => (none, w1)
    | (.ok id, w1) =>
      let root1 := ReplaceFirst root localMarker id
      if !HasPrefix root1 ipnsPrefix then (none, w1)
      else (some ⟨root1⟩, w1)
  else
    if !HasPrefix root ipnsPrefix then (none, w)
    else (some ⟨root⟩, w)

/-- The method `fullPath`. -/
def driver.fullPath (d : driver) (path : Str) : Str := Join [d.root, path]

/-- Lines 147-160 of `addBubblePublish`: the hash of the parent as it stands,
or of a fresh empty directory when the parent does not exist. -/
def oldParent (parentPath : Str) (w : World σ) : Except DriverError Str × World σ :=
  match callFileList sh parentPath w with
  | (.ok parent, w1) => (.ok parent.Hash, w1)
  | (.error e, w1) =>
    if !HasPrefix e noLinkNamed then (.error (.store e), w1)
    else
      match callNewObject sh unixfsDir w1 with
      | (.error e2, w2) => (.error (.store e2), w2)
      | (.ok emptyDirHash, w2) => (.ok emptyDirHash, w2)

/-- Lines 162-174 of `addBubblePublish`: drop the link `childName` from the
parent, tolerating its absence, and add it again pointing at `contentHash`. -/
def relink (oldParentHash childName contentHash : Str) (w : World σ) :
    Except DriverError Str × World σ :=
  match callPatch sh oldParentHash rmLink [childName] w with
  | (.ok tmpParentHash, w1) =>
    (match callPatch sh tmpParentHash addLink [childName, contentHash] w1 with
     | (.ok newParentHash, w2) => (.ok newParentHash, w2)
     | (.error e, w2) => (.error (.store e), w2))
  | (.error e, w1) =>
    if e = merkledagNotFound then
      (match callPatch sh oldParentHash addLink [childName, contentHash] w1 with
       | (.ok newParentHash, w2) => (.ok newParentHash, w2)
       | (.error e2, w2) => (.error (.store e2), w2))
    else (.error (.store e), w1)

/-- The method `addBubblePublish`; one unit of fuel per iteration of its loop. -/
def driver.addBubblePublish : Nat → Str → Str → World σ → Option (Except DriverError Unit) × World σ
  | 0, _, _, w => (none, w)
  | fuel + 1, path, contentHash, w =>
    let parentPath := TrimRightSlash (Split path).1
    let childName := (Split path).2
    if parentPath = ipnsDir then
      match callPublish sh childName contentHash w with
      | (.error e, w1) => (some (.error (.store e)), w1)
      | (.ok _, w1) => (some (.ok ()), w1)
    else
      match oldParent sh parentPath w with
      | (.error e, w1) => (some (.error e), w1)
      | (.ok oldParentHash, w1) =>
        match relink sh oldParentHash childName contentHash w1 with
        | (.error e, w2) => (some (.error e), w2)
        | (.ok newParentHash, w2) => driver.addBubblePublish fuel parentPath newParentHash w2

/-- The method `GetContent`. -/
def driver.GetContent (d : driver) (path : Str) (w : World σ) : Except DriverError Bytes × World σ :=
  match callCat sh (driver.fullPath d path) w with
  | (.error e, w1) =>
    if HasPrefix e noLinkNamed then (.error (.pathNotFound path), w1)
    else (.error (.store e), w1)
  | (.ok content, w1) => (.ok content, w1)

/-- The method `PutContent`. -/
def driver.PutContent (d : driver) (fuel : Nat) (path : Str) (contents : Bytes) (w : World σ) :
    Option (Except DriverError Unit) × World σ :=
  match callAdd sh contents w with
  | (.error e, w1) => (some (.error (.store e)), w1)
  | (.ok contentHash, w1) => driver.addBubblePublish sh fuel (driver.fullPath d path) contentHash w1

/-- The method `ReadStream`: the bytes the returned reader yields. -/
def driver.ReadStream (d : driver) (path : Str) (offset : Int) (w : World σ) :
    Except DriverError Bytes × World σ :=
  match callCat sh (driver.fullPath d path) w with
  | (.error e, w1) => (.error (.store e), w1)
  | (.ok content, w1) =>
    match CopyN content offset with
    | (_, _, true) => (.error .eof, w1)
    | (discarded, _, false) => (.ok (content.drop discarded.length), w1)

/-- Lines 227-235 of `WriteStream`: hand the bytes to `Add`, bubble the hash,
and return `nn` with the error of the bubble pass. -/
def addAndBubble (fuel : Nat) (full : Str) (nn : Int) (reader : Bytes) (w : World σ) :
    Option (Int × Except DriverError Unit) × World σ :=
  match callAdd sh reader w with
  | (.error e, w1) => (some (0, .error (.store e)), w1)
  | (.ok contentHash, w1) =>
    match driver.addBubblePublish sh fuel full contentHash w1 with
    | (none, w2) => (none, w2)
    | (some err, w2) => (some (nn, err), w2)

/-- The method `WriteStream`: the pair `(nn, err)` it returns. -/
def driver.WriteStream (d : driver) (fuel : Nat) (path : Str) (offset : Int) (reader : Bytes)
    (w : World σ) : Option (Int × Except DriverError Unit) × World σ :=
  match callCat sh (driver.fullPath d path) w with
  | (.ok old, w1) =>
    (match CopyN old offset with
     | (_, _, true) => (some (0, .error .eof), w1)
     | (buf, nn, false) => addAndBubble sh fuel (driver.fullPath d path) nn (buf ++ reader) w1)
  | (.error e, w1) =>
    if HasPrefix e noLinkNamed then addAndBubble sh fuel (driver.fullPath d path) 0 reader w1
    else (some (0, .error (.store e)), w1)

/-- The method `Stat`. -/
def driver.Stat (d : driver) (path : Str) (w : World σ) : Except DriverError FileInfoFields × World σ :=
  match callFileList sh (driver.fullPath d path) w with
  | (.error e, w1) =>
    if HasPrefix e noLinkNamed then (.error (.pathNotFound path), w1)
    else (.error (.store e), w1)
  | (.ok output, w1) =>
    let isDir : Bool := output.Typ = directoryType
    (.ok ⟨path, if !isDir then (output.Size : Int) else 0, 0, isDir⟩, w1)

/-- The method `List`. -/
def driver.List (d : driver) (path : Str) (w : World σ) : Except DriverError (List Str) × World σ :=
  match callFileList sh (driver.fullPath d path) w with
  | (.error e, w1) =>
    if HasPrefix e noLinkNamed then (.error (.pathNotFound path), w1)
    else (.error (.store e), w1)
  | (.ok output, w1) => (.ok (output.Links.map (fun link => Join [path, link.Name])), w1)

/-- The loop of `Move` and `Delete` looking a link up by name: the hash of the
first link called `name`, the empty string when there is none. -/
def findLinkHash : List LsLink → Str → Str
  | [], _ => []
  | link :: links, name => if link.Name = name then link.Hash else findLinkHash links name

/-- The method `Move`. -/
def driver.Move (d : driver) (fuel : Nat) (source dest : Str) (w : World σ) :
    Option (Except DriverError Unit) × World σ :=
  let sourceParentPath := (Split (driver.fullPath d source)).1
  let sourceName := (Split (driver.fullPath d source)).2
  match callFileList sh sourceParentPath w with
  | (.error e, w1) =>
    if HasPrefix e noLinkNamed then (some (.error (.pathNotFound source)), w1)
    else (some (.error (.store e)), w1)
  | (.ok sourceParent, w1) =>
    let sourceHash := findLinkHash sourceParent.Links sourceName
    if sourceHash = [] then (some (.error (.pathNotFound source)), w1)
    else
      match callPatch sh sourceParent.Hash rmLink [sourceName] w1 with
      | (.error e, w2) =>
        if e = merkledagNotFound then (some (.error (.pathNotFound source)), w2)
        else (some (.error (.store e)), w2)
      | (.ok newSourceParentHash, w2) =>
        match driver.addBubblePublish sh fuel sourceParentPath newSourceParentHash w2 with
        | (none, w3) => (none, w3)
        | (some (.error e), w3) => (some (.error e), w3)
        | (some (.ok _), w3) => driver.addBubblePublish sh fuel (driver.fullPath d dest) sourceHash w3

/-- The method `Delete`. -/
def driver.Delete (d : driver) (fuel : Nat) (path : Str) (w : World σ) :
    Option (Except DriverError Unit) × World σ :=
  let parentPath := (Split (driver.fullPath d path)).1
  let name := (Split (driver.fullPath d path)).2
  match callFileList sh parentPath w with
  | (.error e, w1) =>
    if HasPrefix e noLinkNamed then (some (.error (.pathNotFound path)), w1)
    else (some (.error (.store e)), w1)
  | (.ok parent, w1) =>
    let hash := findLinkHash parent.Links name
    if hash = [] then (some (.error (.pathNotFound path)), w1)
    else
      match callPatch sh parent.Hash rmLink [name] w1 with
      | (.error e, w2) =>
        if e = merkledagNotFound then (some (.error (.pathNotFound path)), w2)
        else (some (.error (.store e)), w2)
      | (.ok newParentHash, w2) => driver.addBubblePublish sh fuel parentPath newParentHash w2

end Driver

/-! ## A model of the content store

Objects are immutable and kept in a table that only grows; the hash of an
object names its slot, and storing a content that is already there returns the
slot it has (equal content, equal hash).  A directory holds named links to
hashes.  Published names resolve to a root hash and change only by `Publish`. -/

/-- An object of the store: a file with its bytes, or a directory with its
named links. -/
inductive Node where
  | file (data : Bytes)
  | dir (links : List (Str × Str))
  deriving DecidableEq, Repr

/-- The store: its own identity, the object table, the published names. -/
structure Store where
  self : Str
  objects : List Node
  names : List (Str × Str)

/-- The hash naming slot `i` of the object table. -/
def hashOf (i : Nat) : Str := 'Q' :: 'm' :: List.replicate i 'x'

/-- The slot a hash names, if it is a hash. -/
def unhash : Str → Option Nat
  | 'Q' :: 'm' :: rest => if rest.all (fun c => c == 'x') then some rest.length else none
  | _ => none

/-- The store error for a hash with no object behind it. -/
def blockNotFound : Str := ['b', 'l', 'o', 'c', 'k', ' ', 'n', 'o', 't', ' ', 'f', 'o', 'u', 'n', 'd']

/-- The store error for reading a directory as a file. -/
def isDirectoryError : Str :=
  ['t', 'h', 'i', 's', ' ', 'd', 'a', 'g', ' ', 'n', 'o', 'd', 'e', ' ', 'i', 's', ' ', 'a', ' ',
   'd', 'i', 'r', 'e', 'c', 't', 'o', 'r', 'y']

/-- The store error for a path that is not `/ipns/<name>/...` or `/ipfs/<hash>/...`. -/
def invalidPath : Str := ['i', 'n', 'v', 'a', 'l', 'i', 'd', ' ', 'p', 'a', 't', 'h']

/-- The store error for a name nothing was published under. -/
def unresolvedName : Str :=
  ['c', 'o', 'u', 'l', 'd', ' ', 'n', 'o', 't', ' ', 'r', 'e', 's', 'o', 'l', 'v', 'e', ' ',
   'n', 'a', 'm', 'e']

/-- The store error for a patch it cannot apply. -/
def badPatch : Str := ['b', 'a', 'd', ' ', 'p', 'a', 't', 'c', 'h']

/-- The store error `no link named "<name>" under <hash>`. -/
def noLinkError (name h : Str) : Str :=
  noLinkNamed ++ [' ', '"'] ++ name ++ ['"', ' ', 'u', 'n', 'd', 'e', 'r', ' '] ++ h

/-- The object behind a hash. -/
def Store.getNode (s : Store) (h : Str) : Option Node :=
  match unhash h with
  | none => none
  | some i => s.objects[i]?

/-- Store an object: the slot it already has, or a new one at the end. -/
def intern (n : Node) (objects : List Node) : Nat × List Node :=
  if n ∈ objects then (objects.indexOf n, objects) else (objects.length, objects ++ [n])

/-- Store an object in a store and return its hash. -/
def Store.put (s : Store) (n : Node) : Str × Store :=
  (hashOf (intern n s.objects).1, { s with objects := (intern n s.objects).2 })

/-- Follow named links from the object `h`. -/
def Store.walk (s : Store) : Str → List Str → Except Str Str
  | h, [] => .ok h
  | h, seg :: rest =>
    match s.getNode h with
    | none => .error blockNotFound
    | some (.file _) => .error (noLinkError seg h)
    | some (.dir links) =>
      match links.lookup seg with
      | none => .error (noLinkError seg h)
      | some h1 => s.walk h1 rest

/-- The non-empty elements of a path. -/
def pathElems (path : Str) : List Str := (splitSlash path).filter (fun e => e ≠ [])

/-- Resolve `/ipns/<name>/...` through the published names, `/ipfs/<hash>/...`
directly. -/
def Store.resolve (s : Store) (path : Str) : Except Str Str :=
  match pathElems path with
  | ns :: name :: rest =>
    if ns = ['i', 'p', 'n', 's'] then
      match s.names.lookup name with
      | none => .error unresolvedName
      | some h => s.walk h rest
    else if ns = ['i', 'p', 'f', 's'] then s.walk name rest
    else .error invalidPath
  | _ => .error invalidPath

/-- The type and size `FileList` reports for the target of a link. -/
def Store.linkInfo (s : Store) (link : Str × Str) : LsLink :=
  match s.getNode link.2 with
  | some (.file data) => ⟨link.1, link.2, data.length, fileType⟩
  | some (.dir _) => ⟨link.1, link.2, 0, directoryType⟩
  | none => ⟨link.1, link.2, 0, []⟩

def Store.ID (s : Store) : Except Str Str × Store := (.ok s.self, s)

def Store.Cat (path : Str) (s : Store) : Except Str Bytes × Store :=
  match s.resolve path with
  | .error e => (.error e, s)
  | .ok h =>
    match s.getNode h with
    | none => (.error blockNotFound, s)
    | some (.dir _) => (.error isDirectoryError, s)
    | some (.file data) => (.ok data, s)

def Store.Add (content : Bytes) (s : Store) : Except Str Str × Store :=
  (.ok (s.put (.file content)).1, (s.put (.file content)).2)

def Store.FileList (path : Str) (s : Store) : Except Str LsObject × Store :=
  match s.resolve path with
  | .error e => (.error e, s)
  | .ok h =>
    match s.getNode h with
    | none => (.error blockNotFound, s)
    | some (.file data) => (.ok ⟨h, data.length, fileType, []⟩, s)
    | some (.dir links) => (.ok ⟨h, 0, directoryType, links.map s.linkInfo⟩, s)

/-- The calls `Patch(root, "rm-link", name)` and `Patch(root, "add-link", name,
target)`.  Removing a link that is not there fails with `merkledag: not found`.
The model has no object that is a file and holds named links, so a link cannot
be added to a file. -/
def Store.Patch (root action : Str) (args : List Str) (s : Store) : Except Str Str × Store :=
  match s.getNode root with
  | none => (.error blockNotFound, s)
  | some (.file _) =>
    if action = rmLink then (.error merkledagNotFound, s) else (.error badPatch, s)
  | some (.dir links) =>
    if action = rmLink then
      match args with
      | [name] =>
        if (links.lookup name).isSome then
          (.ok (s.put (.dir (links.filter (fun l => l.1 ≠ name)))).1,
            (s.put (.dir (links.filter (fun l => l.1 ≠ name)))).2)
        else (.error merkledagNotFound, s)
      | _ => (.error badPatch, s)
    else if action = addLink then
      match args with
      | [name, target] =>
        (.ok (s.put (.dir (links ++ [(name, target)]))).1,
          (s.put (.dir (links ++ [(name, target)]))).2)
      | _ => (.error badPatch, s)
    else (.error badPatch, s)

def Store.NewObject (template : Str) (s : Store) : Except Str Str × Store :=
  if template = unixfsDir then (.ok (s.put (.dir [])).1, (s.put (.dir [])).2)
  else (.error badPatch, s)

def Store.Publish (name hash : Str) (s : Store) : Except Str Unit × Store :=
  (.ok (), { s with names := (name, hash) :: s.names })

/-- The store as the shell the driver talks to. -/
def storeShell : Shell Store where
  ID := Store.ID
  Cat := Store.Cat
  Add := Store.Add
  FileList := Store.FileList
  Patch := Store.Patch
  NewObject := Store.NewObject
  Publish := Store.Publish

/-! ## Definitions used in the statements -/

/-- A path element: non-empty and free of slashes. -/
def ValidSeg (s : Str) : Prop := s ≠ [] ∧ '/' ∉ s

instance (s : Str) : Decidable (ValidSeg s) := by unfold ValidSeg; infer_instance

/-- Whether the event is a `Publish` call. -/
def Event.isPublish : Event → Bool
  | .publish _ _ _ => true
  | _ => false

/-- The error of a call whose failure `addBubblePublish` does not tolerate: a
`FileList` error that does not begin with `no link named`, any `NewObject`
error, any `add-link` error, an `rm-link` error other than
`merkledag: not found`. -/
def Event.fatal : Event → Option Str
  | .fileList _ (.error e) => if HasPrefix e noLinkNamed then none else some e
  | .newObject _ (.error e) => some e
  | .patch _ action _ (.error e) =>
    if action = rmLink ∧ e = merkledagNotFound then none else some e
  | _ => none

/-- Whether the event is a call that failed. -/
def Event.failed : Event → Bool
  | .id (.error _) => true
  | .cat _ (.error _) => true
  | .add _ (.error _) => true
  | .fileList _ (.error _) => true
  | .patch _ _ _ (.error _) => true
  | .newObject _ (.error _) => true
  | .publish _ _ (.error _) => true
  | _ => false

/-- The calls `L` of a step contain no publish, and a fatal one among them is
the error the step returned. -/
def Quiet {α : Type} (L : List Event) (r : Except DriverError α) : Prop :=
  (∀ ev ∈ L, ev.isPublish = false) ∧ ∀ ev ∈ L, ∀ e, ev.fatal = some e → r = .error (.store e)

/-- The name space `ipns` as a path element. -/
def ipns : Str := ['i', 'p', 'n', 's']

/-- The calls of a bubble pass that shape it: listing an ancestor, adding a
link to it, publishing. -/
inductive Step where
  | fileList (path : Str)
  | addLink (args : List Str) (r : Except Str Str)
  | publish (name hash : Str) (r : Except Str Unit)

/-- The shaping call an event is, if it is one. -/
def Event.step : Event → Option Step
  | .fileList path _ => some (.fileList path)
  | .patch _ action args r => if action = addLink then some (.addLink args r) else none
  | .publish name hash r => some (.publish name hash r)
  | _ => none

/-- Whether the event is an `add-link` patch. -/
def Event.isAddLink : Event → Bool
  | .patch _ action _ _ => action = addLink
  | _ => false

/-- The shaping calls of a successful pass for `/ipns/N/s1/.../sn`, in the order
issued.  `rs` is `sn, …, s1`, `h` the hash to link under `sn`, and `results`
the hashes `c(n-1), …, c0` the `add-link` patches return: the ancestor
`/ipns/N/s1/.../s(n-1)` is listed and gets the link `sn → h`, giving
`c(n-1)`, which is linked under `s(n-1)` one level up, and so on; at the end
`c0` is published under `N`. -/
def bubbleTrace (N : Str) : List Str → Str → List Str → List Step
  | [], h, _ => [.publish N h (.ok ())]
  | _ :: _, _, [] => []
  | x :: rs, h, c :: cs =>
    .fileList (mkPath (ipns :: N :: rs.reverse)) :: .addLink [x, h] (.ok c) :: bubbleTrace N rs c cs

/-- The name `me`. -/
def me : Str := ['m', 'e']

/-- A store holding one empty directory, published under the name `me`. -/
def demoStore : Store := ⟨me, [.dir []], [(me, hashOf 0)]⟩

/-- The world of `demoStore` with an empty log. -/
def demoWorld : World Store := ⟨demoStore, []⟩

/-- The content handed to `Add`, if the event is an `Add` call. -/
def Event.addContent : Event → Option Bytes
  | .add content _ => some content
  | _ => none

/-- Every object of `s` is an object of `t`, under the same hash. -/
def Store.objLe (s t : Store) : Prop := ∀ h n, s.getNode h = some n → t.getNode h = some n

/-- A path element that `Clean` keeps as it is: valid, and neither `.` nor `..`. -/
def CleanSeg (s : Str) : Prop := ValidSeg s ∧ s ≠ ['.'] ∧ s ≠ ['.', '.']

instance (s : Str) : Decidable (CleanSeg s) := by unfold CleanSeg; infer_instance

/-- No proper ancestor of the path `segs` below the object `h` is a file or a
missing block: every object met on the way to the parent of the last element,
that parent included, is a directory.  The object at `segs` itself is free. -/
def Store.ancestorsOk (s : Store) : Str → List Str → Bool
  | _, [] => true
  | h, x :: rest =>
    match s.getNode h with
    | some (.dir links) =>
      (match links.lookup x with
       | none => true
       | some h1 => s.ancestorsOk h1 rest)
    | _ => false

/-- A store in which `/ipns/me/a` is a directory holding the file `b`. -/
def dirStore : Store :=
  ⟨me, [.file [1], .dir [(['b'], hashOf 0)], .dir [(['a'], hashOf 1)]], [(me, hashOf 2)]⟩

/-- The logical path of the directory with elements `as`: `/a1/.../ak`, and `/`
for the root directory. -/
def dirPath (as : List Str) : Str := if as = [] then ['/'] else mkPath as

/-- The driver with root `/ipns/me`. -/
def demoDriver : driver := ⟨mkPath [ipns, me]⟩

/-! ## Strings -/

theorem hasPrefix_iff (s pre : Str) : HasPrefix s pre = true ↔ ∃ rest, s = pre ++ rest := by
  unfold HasPrefix
  rw [List.isPrefixOf_iff_prefix]
  constructor
  · rintro ⟨t, ht⟩; exact ⟨t, ht.symm⟩
  · rintro ⟨t, ht⟩; exact ⟨t, ht.symm⟩

theorem hasPrefix_append (pre rest : Str) : HasPrefix (pre ++ rest) pre = true :=
  (hasPrefix_iff _ _).2 ⟨rest, rfl⟩

theorem replaceFirst_marker (rest id : Str) :
    ReplaceFirst (ipnsLocalPrefix ++ rest) localMarker id = ipnsPrefix ++ (id ++ '/' :: rest) := by
  simp [ipnsLocalPrefix, ipnsPrefix, localMarker, ReplaceFirst, List.isPrefixOf]

/-! ## Construction -/

/-- C10: `New` returns no driver exactly when the root has the `/ipns/local/`
marker and the identity query fails, or the root does not begin with `/ipns/`.
For a marker root `/ipns/local/rest` and identity `id` the storage root is
`/ipns/id/rest`; a root under `/ipns/` without the marker is kept as it is.
The identity query is issued once for a marker root and not at all otherwise. -/
theorem New_spec {σ : Type} (sh : Shell σ) (addr root : Str) (w : World σ) :
    ((New sh addr root w).1 = none ↔
      (HasPrefix root ipnsLocalPrefix = true ∧ ∃ e, (sh.ID w.st).1 = .error e)
        ∨ HasPrefix root ipnsPrefix = false) ∧
    (∀ rest id, root = ipnsLocalPrefix ++ rest → (sh.ID w.st).1 = .ok id →
      (New sh addr root w).1 = some ⟨ipnsPrefix ++ (id ++ '/' :: rest)⟩) ∧
    (HasPrefix root ipnsPrefix = true → HasPrefix root ipnsLocalPrefix = false →
      (New sh addr root w).1 = some ⟨root⟩) ∧
    (New sh addr root w).2.log =
      (if HasPrefix root ipnsLocalPrefix then [Event.id (sh.ID w.st).1] else []) ++ w.log := by
  by_cases hm : HasPrefix root ipnsLocalPrefix = true
  · obtain ⟨rest, rfl⟩ := (hasPrefix_iff _ _).1 hm
    have hp : HasPrefix (ipnsLocalPrefix ++ rest) ipnsPrefix = true := by
      simp [ipnsLocalPrefix, hasPrefix_append]
    have hp2 : ∀ id, HasPrefix (ipnsPrefix ++ (id ++ '/' :: rest)) ipnsPrefix = true := by
      intro id; simp [hasPrefix_append]
    cases hid : (sh.ID w.st).1 with
    | error e => simp [New, hm, callID, hid, hp]
    | ok id => simp [New, hm, callID, hid, hp, replaceFirst_marker, hp2]
  · simp only [Bool.not_eq_true] at hm
    cases hp : HasPrefix root ipnsPrefix <;> simp [New, hm, hp]
    · intro rest id h; subst h; simp [hasPrefix_append] at hm
    · intro rest id h; subst h; simp [hasPrefix_append] at hm

theorem split_append_slash (a f : Str) (hf : '/' ∉ f) :
    Split (a ++ '/' :: f) = (a ++ ['/'], f) := by
  induction f using List.reverseRecOn with
  | nil => simp [Split, List.rdropWhile_concat_neg, List.rtakeWhile_concat_neg]
  | append_singleton f c ih =>
    have hc : c ≠ '/' := by intro h; apply hf; simp [h]
    have hf2 : '/' ∉ f := by intro h; apply hf; simp [h]
    have ih2 := ih hf2
    simp only [Split, Prod.mk.injEq] at ih2 ⊢
    have e : a ++ '/' :: (f ++ [c]) = (a ++ '/' :: f) ++ [c] := by simp
    rw [e, List.rdropWhile_concat_pos _ _ _ (by simpa using hc),
      List.rtakeWhile_concat_pos _ _ _ (by simpa using hc), ih2.1, ih2.2]
    simp

theorem mkPath_append (a b : List Str) : mkPath (a ++ b) = mkPath a ++ mkPath b := by
  induction a with
  | nil => rfl
  | cons s ss ih => simp [mkPath, ih]

theorem trim_no_slash_end (a : Str) (c : Char) (hc : c ≠ '/') :
    TrimRightSlash (a ++ [c] ++ ['/']) = a ++ [c] := by
  unfold TrimRightSlash
  rw [List.rdropWhile_concat_pos _ _ _ (by simp), List.rdropWhile_concat_neg _ _ _ (by simpa using hc)]

/-- A path of valid elements is empty or ends in a character that is no slash. -/
theorem mkPath_end (ss : List Str) (h : ∀ s ∈ ss, ValidSeg s) :
    mkPath ss = [] ∨ ∃ a c, mkPath ss = a ++ [c] ∧ c ≠ '/' := by
  induction ss using List.reverseRecOn with
  | nil => left; rfl
  | append_singleton ss s _ =>
    right
    have hs := h s (by simp)
    obtain ⟨hne, hsl⟩ := hs
    obtain ⟨t, c, rfl⟩ : ∃ t c, s = t ++ [c] := by
      rcases List.eq_nil_or_concat s with h1 | ⟨t, c, h1⟩
      · exact absurd h1 hne
      · exact ⟨t, c, by simpa using h1⟩
    refine ⟨mkPath ss ++ '/' :: t, c, ?_, ?_⟩
    · simp [mkPath_append, mkPath]
    · intro hc; apply hsl; simp [hc]

theorem trim_mkPath (ss : List Str) (h : ∀ s ∈ ss, ValidSeg s) :
    TrimRightSlash (mkPath ss ++ ['/']) = mkPath ss := by
  rcases mkPath_end ss h with h0 | ⟨a, c, hac, hc⟩
  · rw [h0]; simp [TrimRightSlash, List.rdropWhile]
  · rw [hac]; exact trim_no_slash_end a c hc

/-- Splitting `/s1/.../sn/x` and trimming gives `/s1/.../sn` and `x`. -/
theorem split_mkPath (ss : List Str) (x : Str) (h : ∀ s ∈ ss, ValidSeg s) (hx : '/' ∉ x) :
    TrimRightSlash (Split (mkPath (ss ++ [x]))).1 = mkPath ss ∧
      (Split (mkPath (ss ++ [x]))).2 = x := by
  have e : mkPath (ss ++ [x]) = mkPath ss ++ '/' :: x := by simp [mkPath_append, mkPath]
  rw [e, split_append_slash _ _ hx]
  exact ⟨trim_mkPath ss h, rfl⟩

/-! ## Events of a bubble pass -/

section Abstract
variable {σ : Type} (sh : Shell σ)

theorem oldParent_quiet (parentPath : Str) (w : World σ) :
    ∃ L, (oldParent sh parentPath w).2.log = L ++ w.log ∧ Quiet L (oldParent sh parentPath w).1 := by
  unfold oldParent callFileList
  cases h1 : (sh.FileList parentPath w.st).1 with
  | ok parent =>
    refine ⟨[Event.fileList parentPath (.ok parent)], by simp, ?_⟩
    simp [Quiet, Event.isPublish, Event.fatal]
  | error e =>
    by_cases hp : HasPrefix e noLinkNamed = true
    · simp only [hp, Bool.not_true, Bool.false_eq_true, ↓reduceIte, callNewObject]
      cases h2 : (sh.NewObject unixfsDir (sh.FileList parentPath w.st).2).1 with
      | ok h =>
        refine ⟨[Event.newObject unixfsDir (.ok h), Event.fileList parentPath (.error e)],
          by simp, ?_⟩
        simp [Quiet, Event.isPublish, Event.fatal, hp]
      | error e2 =>
        refine ⟨[Event.newObject unixfsDir (.error e2), Event.fileList parentPath (.error e)],
          by simp, ?_⟩
        simp [Quiet, Event.isPublish, Event.fatal, hp]
    · simp only [Bool.not_eq_true] at hp
      simp only [hp, Bool.not_false, ↓reduceIte]
      refine ⟨[Event.fileList parentPath (.error e)], by simp, ?_⟩
      simp [Quiet, Event.isPublish, Event.fatal, hp]

theorem relink_quiet (oldParentHash childName contentHash : Str) (w : World σ) :
    ∃ L, (relink sh oldParentHash childName contentHash w).2.log = L ++ w.log ∧
      Quiet L (relink sh oldParentHash childName contentHash w).1 := by
  unfold relink callPatch
  cases h1 : (sh.Patch oldParentHash rmLink [childName] w.st).1 with
  | ok tmp =>
    simp only
    cases h2 : (sh.Patch tmp addLink [childName, contentHash]
        (sh.Patch oldParentHash rmLink [childName] w.st).2).1 with
    | ok h =>
      refine ⟨[Event.patch tmp addLink [childName, contentHash] (.ok h),
        Event.patch oldParentHash rmLink [childName] (.ok tmp)], by simp, ?_⟩
      simp [Quiet, Event.isPublish, Event.fatal]
    | error e =>
      refine ⟨[Event.patch tmp addLink [childName, contentHash] (.error e),
        Event.patch oldParentHash rmLink [childName] (.ok tmp)], by simp, ?_⟩
      simp [Quiet, Event.isPublish, Event.fatal, addLink, rmLink]
  | error e =>
    by_cases hn : e = merkledagNotFound
    · simp only [hn, ↓reduceIte]
      cases h2 : (sh.Patch oldParentHash addLink [childName, contentHash]
          (sh.Patch oldParentHash rmLink [childName] w.st).2).1 with
      | ok h =>
        refine ⟨[Event.patch oldParentHash addLink [childName, contentHash] (.ok h),
          Event.patch oldParentHash rmLink [childName] (.error merkledagNotFound)], by simp, ?_⟩
        simp [Quiet, Event.isPublish, Event.fatal]
      | error e2 =>
        refine ⟨[Event.patch oldParentHash addLink [childName, contentHash] (.error e2),
          Event.patch oldParentHash rmLink [childName] (.error merkledagNotFound)], by simp, ?_⟩
        simp [Quiet, Event.isPublish, Event.fatal, addLink, rmLink]
    · simp only [hn, ↓reduceIte]
      refine ⟨[Event.patch oldParentHash rmLink [childName] (.error e)], by simp, ?_⟩
      simp [Quiet, Event.isPublish, Event.fatal, hn]

end Abstract

section Abstract
variable {σ : Type} (sh : Shell σ)

/-- One iteration of the loop of `addBubblePublish` that does not publish. -/
theorem addBubblePublish_succ (fuel : Nat) (path contentHash : Str) (w : World σ)
    (hne : TrimRightSlash (Split path).1 ≠ ipnsDir) :
    driver.addBubblePublish sh (fuel + 1) path contentHash w =
      match oldParent sh (TrimRightSlash (Split path).1) w with
      | (.error e, w1) => (some (.error e), w1)
      | (.ok oldParentHash, w1) =>
        match relink sh oldParentHash (Split path).2 contentHash w1 with
        | (.error e, w2) => (some (.error e), w2)
        | (.ok newParentHash, w2) =>
          driver.addBubblePublish sh fuel (TrimRightSlash (Split path).1) newParentHash w2 := by
  rw [driver.addBubblePublish]
  simp only [hne, ↓reduceIte]

/-- The iteration of the loop of `addBubblePublish` that publishes. -/
theorem addBubblePublish_publish (fuel : Nat) (path contentHash : Str) (w : World σ)
    (he : TrimRightSlash (Split path).1 = ipnsDir) :
    driver.addBubblePublish sh (fuel + 1) path contentHash w =
      match callPublish sh (Split path).2 contentHash w with
      | (.error e, w1) => (some (.error (.store e)), w1)
      | (.ok _, w1) => (some (.ok ()), w1) := by
  rw [driver.addBubblePublish]
  simp only [he, ↓reduceIte]

theorem oldParent_obs {α : Type} (obs : σ → α)
    (hFL : ∀ p st, obs (sh.FileList p st).2 = obs st)
    (hNO : ∀ t st, obs (sh.NewObject t st).2 = obs st) (parentPath : Str) (w : World σ) :
    obs (oldParent sh parentPath w).2.st = obs w.st := by
  unfold oldParent callFileList
  cases h1 : (sh.FileList parentPath w.st).1 with
  | ok parent => simp [hFL]
  | error e =>
    by_cases hp : HasPrefix e noLinkNamed = true
    · simp only [hp, Bool.not_true, Bool.false_eq_true, ↓reduceIte, callNewObject]
      cases h2 : (sh.NewObject unixfsDir (sh.FileList parentPath w.st).2).1 <;> simp [hFL, hNO]
    · simp only [Bool.not_eq_true] at hp
      simp [hp, hFL]

theorem relink_obs {α : Type} (obs : σ → α)
    (hP : ∀ r a args st, obs (sh.Patch r a args st).2 = obs st)
    (oldParentHash childName contentHash : Str) (w : World σ) :
    obs (relink sh oldParentHash childName contentHash w).2.st = obs w.st := by
  unfold relink callPatch
  cases h1 : (sh.Patch oldParentHash rmLink [childName] w.st).1 with
  | ok tmp =>
    simp only
    cases h2 : (sh.Patch tmp addLink [childName, contentHash]
        (sh.Patch oldParentHash rmLink [childName] w.st).2).1 <;> simp [hP]
  | error e =>
    by_cases hn : e = merkledagNotFound
    · simp only [hn, ↓reduceIte]
      cases h2 : (sh.Patch oldParentHash addLink [childName, contentHash]
          (sh.Patch oldParentHash rmLink [childName] w.st).2).1 <;> simp [hP]
    · simp [hn, hP]

/-- What a pass of `addBubblePublish` leaves in the log, whatever the path and
the fuel: a fatal call is the error returned and excludes any publish, a
publish can only be the newest call, and a pass without publish leaves
unchanged whatever the other calls leave unchanged. -/
theorem addBubblePublish_log (fuel : Nat) (path contentHash : Str) (w : World σ) :
    ∃ L, (driver.addBubblePublish sh fuel path contentHash w).2.log = L ++ w.log ∧
      (∀ ev ∈ L, ∀ e, ev.fatal = some e →
        (driver.addBubblePublish sh fuel path contentHash w).1 = some (.error (.store e)) ∧
          ∀ ev1 ∈ L, ev1.isPublish = false) ∧
      (∀ ev ∈ L.tail, ev.isPublish = false) ∧
      (∀ (α : Type) (obs : σ → α), (∀ p st, obs (sh.FileList p st).2 = obs st) →
        (∀ t st, obs (sh.NewObject t st).2 = obs st) →
        (∀ r a args st, obs (sh.Patch r a args st).2 = obs st) →
        (∀ ev ∈ L, ev.isPublish = false) →
        obs (driver.addBubblePublish sh fuel path contentHash w).2.st = obs w.st) := by
  induction fuel generalizing path contentHash w with
  | zero => exact ⟨[], by simp [driver.addBubblePublish], by simp, by simp,
      by simp [driver.addBubblePublish]⟩
  | succ fuel ih =>
    by_cases he : TrimRightSlash (Split path).1 = ipnsDir
    · rw [addBubblePublish_publish sh fuel path contentHash w he]
      unfold callPublish
      refine ⟨[Event.publish (Split path).2 contentHash
        (sh.Publish (Split path).2 contentHash w.st).1], ?_, ?_, by simp, ?_⟩
      · cases (sh.Publish (Split path).2 contentHash w.st).1 <;> simp
      · simp [Event.fatal]
      · intro α obs _ _ _ h
        simp [Event.isPublish] at h
    · rw [addBubblePublish_succ sh fuel path contentHash w he]
      obtain ⟨L1, hL1, hq1⟩ := oldParent_quiet sh (TrimRightSlash (Split path).1) w
      have ho1 := fun (α : Type) (obs : σ → α) hFL hNO =>
        oldParent_obs sh obs hFL hNO (TrimRightSlash (Split path).1) w
      rcases h1 : oldParent sh (TrimRightSlash (Split path).1) w with ⟨r1, w1⟩
      rw [h1] at hL1 hq1 ho1
      simp only at hL1 hq1 ho1
      cases r1 with
      | error e1 =>
        refine ⟨L1, hL1, ?_, ?_, ?_⟩
        · intro ev hev e hf
          exact ⟨by simpa using congrArg some (hq1.2 ev hev e hf), hq1.1⟩
        · intro ev hev; exact hq1.1 ev (List.mem_of_mem_tail hev)
        · intro α obs hFL hNO _ _; exact ho1 α obs hFL hNO
      | ok oldParentHash =>
        obtain ⟨L2, hL2, hq2⟩ := relink_quiet sh oldParentHash (Split path).2 contentHash w1
        have ho2 := fun (α : Type) (obs : σ → α) hP =>
          relink_obs sh obs hP oldParentHash (Split path).2 contentHash w1
        rcases h2 : relink sh oldParentHash (Split path).2 contentHash w1 with ⟨r2, w2⟩
        rw [h2] at hL2 hq2 ho2
        simp only at hL2 hq2 ho2
        simp only [h2]
        have hno1 : ∀ ev ∈ L1, ∀ e, ev.fatal ≠ some e := by
          intro ev hev e hf
          have := hq1.2 ev hev e hf
          simp at this
        have hnp : ∀ ev ∈ L2 ++ L1, ev.isPublish = false := by
          intro ev hev
          rcases List.mem_append.1 hev with h3 | h3
          · exact hq2.1 ev h3
          · exact hq1.1 ev h3
        cases r2 with
        | error e2 =>
          refine ⟨L2 ++ L1, by simp [hL2, hL1], ?_, ?_, ?_⟩
          · intro ev hev e hf
            rcases List.mem_append.1 hev with h | h
            · exact ⟨by simpa using congrArg some (hq2.2 ev h e hf), hnp⟩
            · exact absurd hf (hno1 ev h e)
          · intro ev hev
            exact hnp ev (List.mem_of_mem_tail hev)
          · intro α obs hFL hNO hP _
            rw [ho2 α obs hP, ho1 α obs hFL hNO]
        | ok newParentHash =>
          have hno2 : ∀ ev ∈ L2, ∀ e, ev.fatal ≠ some e := by
            intro ev hev e hf
            have := hq2.2 ev hev e hf
            simp at this
          obtain ⟨L3, hL3, hf3, ht3, ho3⟩ :=
            ih (TrimRightSlash (Split path).1) newParentHash w2
          refine ⟨L3 ++ (L2 ++ L1), by simp [hL3, hL2, hL1], ?_, ?_, ?_⟩
          · intro ev hev e hf
            rcases List.mem_append.1 hev with h | h
            · obtain ⟨hr, hp⟩ := hf3 ev h e hf
              refine ⟨hr, ?_⟩
              intro ev1 hev1
              rcases List.mem_append.1 hev1 with h3 | h3
              · exact hp ev1 h3
              · exact hnp ev1 h3
            · rcases List.mem_append.1 h with h4 | h4
              · exact absurd hf (hno2 ev h4 e)
              · exact absurd hf (hno1 ev h4 e)
          · intro ev hev
            cases L3 with
            | nil =>
              simp only [List.nil_append] at hev
              exact hnp ev (List.mem_of_mem_tail hev)
            | cons a L3 =>
              simp only [List.cons_append, List.tail_cons] at hev ht3
              rcases List.mem_append.1 hev with h3 | h3
              · exact ht3 ev h3
              · exact hnp ev h3
          · intro α obs hFL hNO hP hall
            rw [ho3 α obs hFL hNO hP (fun ev hev => hall ev (List.mem_append_left _ hev)),
              ho2 α obs hP, ho1 α obs hFL hNO]

end Abstract

/-! ## The shape of a successful pass -/

section Abstract
variable {σ : Type} (sh : Shell σ)

theorem oldParent_steps (parentPath : Str) (w : World σ) :
    ∃ L, (oldParent sh parentPath w).2.log = L ++ w.log ∧
      L.reverse.filterMap Event.step = [.fileList parentPath] ∧
      L.countP Event.isAddLink = 0 ∧ L.countP Event.isPublish = 0 ∧
      ((∀ ev ∈ L, ev.fatal = none) → ∃ hp, (oldParent sh parentPath w).1 = .ok hp) := by
  unfold oldParent callFileList
  cases h1 : (sh.FileList parentPath w.st).1 with
  | ok parent =>
    exact ⟨[Event.fileList parentPath (.ok parent)], by simp,
      by simp [Event.step], by simp [Event.isAddLink], by simp [Event.isPublish], by simp⟩
  | error e =>
    by_cases hp : HasPrefix e noLinkNamed = true
    · simp only [hp, Bool.not_true, Bool.false_eq_true, ↓reduceIte, callNewObject]
      cases h2 : (sh.NewObject unixfsDir (sh.FileList parentPath w.st).2).1 with
      | ok h =>
        exact ⟨[Event.newObject unixfsDir (.ok h), Event.fileList parentPath (.error e)],
          by simp, by simp [Event.step], by simp [Event.isAddLink], by simp [Event.isPublish],
          by simp⟩
      | error e2 =>
        exact ⟨[Event.newObject unixfsDir (.error e2), Event.fileList parentPath (.error e)],
          by simp, by simp [Event.step], by simp [Event.isAddLink], by simp [Event.isPublish],
          by simp [Event.fatal]⟩
    · simp only [Bool.not_eq_true] at hp
      simp only [hp, Bool.not_false, ↓reduceIte]
      exact ⟨[Event.fileList parentPath (.error e)], by simp, by simp [Event.step],
        by simp [Event.isAddLink], by simp [Event.isPublish], by simp [Event.fatal, hp]⟩

theorem relink_steps (oldParentHash childName contentHash : Str) (w : World σ) :
    ∃ L, (relink sh oldParentHash childName contentHash w).2.log = L ++ w.log ∧
      L.countP Event.isPublish = 0 ∧
      ((∀ ev ∈ L, ev.fatal = none) →
        ∃ c, (relink sh oldParentHash childName contentHash w).1 = .ok c ∧
          L.reverse.filterMap Event.step = [.addLink [childName, contentHash] (.ok c)] ∧
          L.countP Event.isAddLink = 1) := by
  have hne : rmLink ≠ addLink := by decide
  unfold relink callPatch
  cases h1 : (sh.Patch oldParentHash rmLink [childName] w.st).1 with
  | ok tmp =>
    simp only
    cases h2 : (sh.Patch tmp addLink [childName, contentHash]
        (sh.Patch oldParentHash rmLink [childName] w.st).2).1 with
    | ok h =>
      exact ⟨[Event.patch tmp addLink [childName, contentHash] (.ok h),
        Event.patch oldParentHash rmLink [childName] (.ok tmp)], by simp,
        by simp [Event.isPublish], by simp [Event.step, Event.isAddLink, hne]⟩
    | error e =>
      exact ⟨[Event.patch tmp addLink [childName, contentHash] (.error e),
        Event.patch oldParentHash rmLink [childName] (.ok tmp)], by simp,
        by simp [Event.isPublish], by simp [Event.fatal, hne.symm]⟩
  | error e =>
    by_cases hn : e = merkledagNotFound
    · simp only [hn, ↓reduceIte]
      cases h2 : (sh.Patch oldParentHash addLink [childName, contentHash]
          (sh.Patch oldParentHash rmLink [childName] w.st).2).1 with
      | ok h =>
        exact ⟨[Event.patch oldParentHash addLink [childName, contentHash] (.ok h),
          Event.patch oldParentHash rmLink [childName] (.error merkledagNotFound)], by simp,
          by simp [Event.isPublish], by simp [Event.step, Event.isAddLink, hne]⟩
      | error e2 =>
        exact ⟨[Event.patch oldParentHash addLink [childName, contentHash] (.error e2),
          Event.patch oldParentHash rmLink [childName] (.error merkledagNotFound)], by simp,
          by simp [Event.isPublish], by simp [Event.fatal, hne.symm]⟩
    · simp only [hn, ↓reduceIte]
      exact ⟨[Event.patch oldParentHash rmLink [childName] (.error e)], by simp,
        by simp [Event.isPublish], by simp [Event.fatal, hn]⟩

theorem mkPath_ipns_ne (N : Str) (ss : List Str) : mkPath (ipns :: N :: ss) ≠ ipnsDir := by
  intro h
  have := congrArg List.length h
  simp [mkPath, ipns, ipnsDir] at this

theorem mkPath_ipns_name (N : Str) (hN : '/' ∉ N) :
    TrimRightSlash (Split (mkPath [ipns, N])).1 = ipnsDir ∧ (Split (mkPath [ipns, N])).2 = N := by
  have := split_mkPath [ipns] N (by simp [ValidSeg, ipns]) hN
  simpa [mkPath, ipns, ipnsDir] using this

end Abstract

section Abstract
variable {σ : Type} (sh : Shell σ)

/-- The shape of a pass over `/ipns/N/s1/.../sn`, with `rs` the elements in
reverse: when no call fails fatally and the publish succeeds, the pass returns
success within `n + 1` iterations and its shaping calls are `bubbleTrace`. -/
theorem bubble_shape_aux (N : Str) (hN : ValidSeg N) (rs : List Str)
    (hrs : ∀ s ∈ rs, ValidSeg s) (h : Str) (fuel : Nat) (hfuel : rs.length + 1 ≤ fuel)
    (w : World σ) :
    ∃ L, (driver.addBubblePublish sh fuel (mkPath (ipns :: N :: rs.reverse)) h w).2.log
        = L ++ w.log ∧
      ((∀ ev ∈ L, ev.fatal = none ∧ (ev.isPublish = true → ev.failed = false)) →
        (driver.addBubblePublish sh fuel (mkPath (ipns :: N :: rs.reverse)) h w).1
            = some (.ok ()) ∧
          ∃ results : List Str, results.length = rs.length ∧
            L.reverse.filterMap Event.step = bubbleTrace N rs h results ∧
            L.countP Event.isAddLink = rs.length ∧
            L.countP Event.isPublish = 1 ∧
            L.head? = some (Event.publish N ((h :: results).getLast (by simp)) (.ok ()))) := by
  induction rs generalizing h fuel w with
  | nil =>
    obtain ⟨fuel, rfl⟩ : ∃ f, fuel = f + 1 := ⟨fuel - 1, by simp at hfuel; omega⟩
    obtain ⟨ht, hc⟩ := mkPath_ipns_name N hN.2
    simp only [List.reverse_nil]
    rw [addBubblePublish_publish sh fuel _ h w ht, hc]
    unfold callPublish
    refine ⟨[Event.publish N h (sh.Publish N h w.st).1], ?_, ?_⟩
    · cases (sh.Publish N h w.st).1 <;> simp
    · intro hall
      have := (hall _ (List.mem_singleton.2 rfl)).2 rfl
      cases hp : (sh.Publish N h w.st).1 with
      | error e => rw [hp] at this; simp [Event.failed] at this
      | ok u =>
        refine ⟨rfl, [], rfl, ?_, ?_, ?_, ?_⟩
        · simp [Event.step, bubbleTrace]
        · simp [Event.isAddLink]
        · simp [Event.isPublish]
        · simp
  | cons x rs ih =>
    obtain ⟨fuel, rfl⟩ : ∃ f, fuel = f + 1 := ⟨fuel - 1, by simp at hfuel; omega⟩
    have hvalid : ∀ s ∈ ipns :: N :: rs.reverse, ValidSeg s := by
      intro s hs
      simp only [List.mem_cons, List.mem_reverse] at hs
      rcases hs with rfl | rfl | hs
      · simp [ValidSeg, ipns]
      · exact hN
      · exact hrs s (List.mem_cons_of_mem _ hs)
    have hsp := split_mkPath (ipns :: N :: rs.reverse) x hvalid (hrs x (List.mem_cons_self _ _)).2
    have hpath : mkPath (ipns :: N :: (x :: rs).reverse)
        = mkPath ((ipns :: N :: rs.reverse) ++ [x]) := by simp
    rw [hpath]
    have hne : TrimRightSlash (Split (mkPath ((ipns :: N :: rs.reverse) ++ [x]))).1 ≠ ipnsDir := by
      rw [hsp.1]; exact mkPath_ipns_ne N _
    rw [addBubblePublish_succ sh fuel _ h w hne, hsp.1, hsp.2]
    obtain ⟨L1, hL1, hs1, ha1, hp1, hok1⟩ := oldParent_steps sh (mkPath (ipns :: N :: rs.reverse)) w
    rcases h1 : oldParent sh (mkPath (ipns :: N :: rs.reverse)) w with ⟨r1, w1⟩
    rw [h1] at hL1 hok1
    simp only at hL1 hok1
    cases r1 with
    | error e1 =>
      refine ⟨L1, hL1, ?_⟩
      intro hall
      obtain ⟨hp, hhp⟩ := hok1 (fun ev hev => (hall ev hev).1)
      cases hhp
    | ok oldParentHash =>
      obtain ⟨L2, hL2, hp2, hok2⟩ := relink_steps sh oldParentHash x h w1
      rcases h2 : relink sh oldParentHash x h w1 with ⟨r2, w2⟩
      rw [h2] at hL2 hok2
      simp only at hL2 hok2
      simp only [h2]
      cases r2 with
      | error e2 =>
        refine ⟨L2 ++ L1, by simp [hL2, hL1], ?_⟩
        intro hall
        obtain ⟨c, hc, _⟩ := hok2 (fun ev hev => (hall ev (List.mem_append_left _ hev)).1)
        cases hc
      | ok newParentHash =>
        obtain ⟨L3, hL3, hok3⟩ := ih (fun s hs => hrs s (List.mem_cons_of_mem _ hs))
          newParentHash fuel (by simp at hfuel ⊢; omega) w2
        refine ⟨L3 ++ (L2 ++ L1), by simp [hL3, hL2, hL1], ?_⟩
        intro hall
        obtain ⟨c, hc, hs2, ha2⟩ := hok2 (fun ev hev =>
          (hall ev (List.mem_append_right _ (List.mem_append_left _ hev))).1)
        cases hc
        obtain ⟨hr3, results, hlen, hs3, ha3, hp3, hh3⟩ :=
          hok3 (fun ev hev => hall ev (List.mem_append_left _ hev))
        refine ⟨hr3, newParentHash :: results, by simp [hlen], ?_, ?_, ?_, ?_⟩
        · simp [List.filterMap_append, hs1, hs2, hs3, bubbleTrace]
        · simp [List.countP_append, ha1, ha2, ha3]
        · simp [List.countP_append, hp1, hp2, hp3]
        · cases L3 with
          | nil => simp at hh3
          | cons a L3 =>
            simp only [List.cons_append, List.head?_cons] at hh3 ⊢
            rw [hh3]
            simp [List.getLast_cons]

end Abstract

/-- C2: for a path `/ipns/N/s1/.../sn` of non-empty slash-free elements and fuel
for `n + 1` iterations, a pass in which no `FileList`, `NewObject` or patch
fails fatally and the publish succeeds returns success; its `FileList`,
`add-link` and `Publish` calls are, in the order issued, those of
`bubbleTrace`: one listing and one `add-link` per ancestor, from
`/ipns/N/s1/.../s(n-1)` up to `/ipns/N`, each linking the result of the one
before (`h` at first), then one `Publish` of the last result under `N`.  There
are exactly `n` `add-link` patches and one `Publish`, which is the last call. -/
theorem bubble_success_shape {σ : Type} (sh : Shell σ) (N : Str) (segs : List Str) (h : Str)
    (fuel : Nat) (w : World σ) (hN : ValidSeg N) (hsegs : ∀ s ∈ segs, ValidSeg s)
    (hfuel : segs.length + 1 ≤ fuel) :
    ∃ L, (driver.addBubblePublish sh fuel (mkPath (ipns :: N :: segs)) h w).2.log = L ++ w.log ∧
      ((∀ ev ∈ L, ev.fatal = none ∧ (ev.isPublish = true → ev.failed = false)) →
        (driver.addBubblePublish sh fuel (mkPath (ipns :: N :: segs)) h w).1 = some (.ok ()) ∧
          ∃ results : List Str, results.length = segs.length ∧
            L.reverse.filterMap Event.step = bubbleTrace N segs.reverse h results ∧
            L.countP Event.isAddLink = segs.length ∧
            L.countP Event.isPublish = 1 ∧
            L.head? = some (Event.publish N ((h :: results).getLast (by simp)) (.ok ()))) := by
  have := bubble_shape_aux sh N hN segs.reverse (by simpa using hsegs) h fuel
    (by simpa using hfuel) w
  simpa using this

/-- Witness of C2 on the store model: a pass for `/ipns/me/a/b` over a store
whose name `me` resolves to an empty directory meets the premise, succeeds,
and issues two `add-link` patches and one publish. -/
theorem bubble_success_shape_witness :
    ValidSeg ['m', 'e'] ∧ (∀ s ∈ [['a'], ['b']], ValidSeg s) ∧
      (driver.addBubblePublish storeShell 3 (mkPath [ipns, ['m', 'e'], ['a'], ['b']])
        (hashOf 0) demoWorld).1 = some (.ok ()) ∧
      (driver.addBubblePublish storeShell 3 (mkPath [ipns, ['m', 'e'], ['a'], ['b']])
        (hashOf 0) demoWorld).2.log.countP Event.isAddLink = 2 := by
  obtain ⟨L, hL, himp⟩ := bubble_success_shape storeShell ['m', 'e'] [['a'], ['b']] (hashOf 0) 3
    demoWorld (by decide) (by decide) (by decide)
  have hLeq : L = (driver.addBubblePublish storeShell 3 (mkPath [ipns, ['m', 'e'], ['a'], ['b']])
      (hashOf 0) demoWorld).2.log := by
    rw [hL]; simp [demoWorld]
  have hprem : ∀ ev ∈ L, ev.fatal = none ∧ (ev.isPublish = true → ev.failed = false) := by
    rw [hLeq]; decide
  obtain ⟨hok, results, _, _, hcount, _, _⟩ := himp hprem
  refine ⟨by decide, by decide, hok, ?_⟩
  rw [← hLeq]; exact hcount

/-- C3: in a pass of `addBubblePublish`, for every path, hash and fuel: a
`FileList` failing with an error that does not begin with `no link named`, a
failing `NewObject`, an `rm-link` patch failing with an error other than
`merkledag: not found`, or a failing `add-link` patch makes the pass return
that error unchanged, with no `Publish` among its calls; a `Publish` can only
be the newest call of the pass, so there is at most one; and a pass without
`Publish` leaves unchanged whatever `FileList`, `NewObject` and `Patch` leave
unchanged, such as what the published names resolve to. -/
theorem bubble_failure_never_publishes {σ : Type} (sh : Shell σ) (fuel : Nat)
    (path contentHash : Str) (w : World σ) :
    ∃ L, (driver.addBubblePublish sh fuel path contentHash w).2.log = L ++ w.log ∧
      (∀ ev ∈ L, ∀ e, ev.fatal = some e →
        (driver.addBubblePublish sh fuel path contentHash w).1 = some (.error (.store e)) ∧
          ∀ ev1 ∈ L, ev1.isPublish = false) ∧
      (∀ ev ∈ L.tail, ev.isPublish = false) ∧
      (∀ (α : Type) (obs : σ → α), (∀ p st, obs (sh.FileList p st).2 = obs st) →
        (∀ t st, obs (sh.NewObject t st).2 = obs st) →
        (∀ r a args st, obs (sh.Patch r a args st).2 = obs st) →
        (∀ ev ∈ L, ev.isPublish = false) →
        obs (driver.addBubblePublish sh fuel path contentHash w).2.st = obs w.st) :=
  addBubblePublish_log sh fuel path contentHash w

section Abstract
variable {σ : Type} (sh : Shell σ)

theorem copyN_within (old : Bytes) (offset : Int) (h0 : 0 ≤ offset)
    (h1 : offset ≤ (old.length : Int)) :
    CopyN old offset = (old.take offset.toNat, offset, false) := by
  unfold CopyN
  by_cases hz : offset ≤ 0
  · have : offset = 0 := le_antisymm hz h0
    subst this
    simp
  · have hlen : ((List.take offset.toNat old).length : Int) = offset := by
      rw [List.length_take]
      have : offset.toNat ≤ old.length := by omega
      rw [min_eq_left this]
      omega
    simp only [hz, ↓reduceIte]
    rw [hlen]
    simp

theorem copyN_beyond (old : Bytes) (offset : Int) (h1 : (old.length : Int) < offset) :
    (CopyN old offset).2.2 = true := by
  unfold CopyN
  have hz : ¬ offset ≤ 0 := by omega
  have hlen : ((List.take offset.toNat old).length : Int) = old.length := by
    rw [List.length_take]
    have : old.length ≤ offset.toNat := by omega
    rw [min_eq_right this]
  have hne : (old.length : Int) ≠ offset := by omega
  simp only [hz, ↓reduceIte]
  rw [hlen]
  simp [hne, h1]

theorem oldParent_no_add (parentPath : Str) (w : World σ) :
    (oldParent sh parentPath w).2.log.filterMap Event.addContent
      = w.log.filterMap Event.addContent := by
  unfold oldParent callFileList
  cases h1 : (sh.FileList parentPath w.st).1 with
  | ok parent => simp [Event.addContent]
  | error e =>
    by_cases hp : HasPrefix e noLinkNamed = true
    · simp only [hp, Bool.not_true, Bool.false_eq_true, ↓reduceIte, callNewObject]
      cases h2 : (sh.NewObject unixfsDir (sh.FileList parentPath w.st).2).1 <;>
        simp [Event.addContent]
    · simp only [Bool.not_eq_true] at hp
      simp [hp, Event.addContent]

theorem relink_no_add (oldParentHash childName contentHash : Str) (w : World σ) :
    (relink sh oldParentHash childName contentHash w).2.log.filterMap Event.addContent
      = w.log.filterMap Event.addContent := by
  unfold relink callPatch
  cases h1 : (sh.Patch oldParentHash rmLink [childName] w.st).1 with
  | ok tmp =>
    simp only
    cases h2 : (sh.Patch tmp addLink [childName, contentHash]
        (sh.Patch oldParentHash rmLink [childName] w.st).2).1 <;> simp [Event.addContent]
  | error e =>
    by_cases hn : e = merkledagNotFound
    · simp only [hn, ↓reduceIte]
      cases h2 : (sh.Patch oldParentHash addLink [childName, contentHash]
          (sh.Patch oldParentHash rmLink [childName] w.st).2).1 <;> simp [Event.addContent]
    · simp [hn, Event.addContent]

/-- A bubble pass hands nothing to `Add`. -/
theorem addBubblePublish_no_add (fuel : Nat) (path contentHash : Str) (w : World σ) :
    (driver.addBubblePublish sh fuel path contentHash w).2.log.filterMap Event.addContent
      = w.log.filterMap Event.addContent := by
  induction fuel generalizing path contentHash w with
  | zero => simp [driver.addBubblePublish]
  | succ fuel ih =>
    by_cases he : TrimRightSlash (Split path).1 = ipnsDir
    · rw [addBubblePublish_publish sh fuel path contentHash w he]
      unfold callPublish
      cases (sh.Publish (Split path).2 contentHash w.st).1 <;> simp [Event.addContent]
    · rw [addBubblePublish_succ sh fuel path contentHash w he]
      have ho := oldParent_no_add sh (TrimRightSlash (Split path).1) w
      rcases h1 : oldParent sh (TrimRightSlash (Split path).1) w with ⟨r1, w1⟩
      rw [h1] at ho
      cases r1 with
      | error e1 => exact ho
      | ok oldParentHash =>
        have hr := relink_no_add sh oldParentHash (Split path).2 contentHash w1
        rcases h2 : relink sh oldParentHash (Split path).2 contentHash w1 with ⟨r2, w2⟩
        rw [h2] at hr
        simp only [h2]
        cases r2 with
        | error e2 => exact hr.trans ho
        | ok newParentHash => exact (ih _ _ _).trans (hr.trans ho)

/-- The `Add` calls of `addAndBubble`: one, with the bytes it was given. -/
theorem addAndBubble_add (fuel : Nat) (full : Str) (nn : Int) (reader : Bytes) (w : World σ) :
    (addAndBubble sh fuel full nn reader w).2.log.filterMap Event.addContent
      = reader :: w.log.filterMap Event.addContent := by
  unfold addAndBubble callAdd
  cases h1 : (sh.Add reader w.st).1 with
  | error e => simp [Event.addContent]
  | ok contentHash =>
    simp only
    have := addBubblePublish_no_add sh fuel full contentHash
      ⟨(sh.Add reader w.st).2, Event.add reader (.ok contentHash) :: w.log⟩
    rcases h2 : driver.addBubblePublish sh fuel full contentHash
      ⟨(sh.Add reader w.st).2, Event.add reader (.ok contentHash) :: w.log⟩ with ⟨r, w2⟩
    rw [h2] at this
    cases r <;> simpa [Event.addContent] using this

/-- C5: when an object of content `old` exists at `p` and the offset is beyond
its length, `WriteStream` returns the byte count 0 with an error, and the one
store call it has issued is the `Cat`: no `Add`, `Patch` or `Publish`.  In the
store model a `Cat` leaves the store, objects and published names, as it is. -/
theorem writeStream_offset_beyond (d : driver) (fuel : Nat) (path : Str) (offset : Int)
    (reader old : Bytes) (w : World σ)
    (hcat : (sh.Cat (driver.fullPath d path) w.st).1 = .ok old)
    (hoff : (old.length : Int) < offset) :
    (driver.WriteStream sh d fuel path offset reader w).1 = some (0, .error .eof) ∧
      (driver.WriteStream sh d fuel path offset reader w).2.log
        = Event.cat (driver.fullPath d path) (.ok old) :: w.log ∧
      (driver.WriteStream sh d fuel path offset reader w).2.st
        = (sh.Cat (driver.fullPath d path) w.st).2 ∧
      ∀ (p : Str) (s : Store), (storeShell.Cat p s).2 = s := by
  have hc := copyN_beyond old offset hoff
  unfold driver.WriteStream callCat
  rw [hcat]
  simp only
  rcases hcp : CopyN old offset with ⟨buf, nn, b⟩
  rw [hcp] at hc
  simp only at hc
  subst hc
  refine ⟨rfl, rfl, rfl, ?_⟩
  intro p s
  simp only [storeShell, Store.Cat]
  cases s.resolve p with
  | error e => rfl
  | ok h =>
    simp only
    cases s.getNode h with
    | none => rfl
    | some n => cases n <;> rfl

end Abstract

/-! ## The store model: objects -/

theorem unhash_hashOf (i : Nat) : unhash (hashOf i) = some i := by
  simp [unhash, hashOf]

theorem hashOf_ne_nil (i : Nat) : hashOf i ≠ [] := by simp [hashOf]

theorem intern_get (n : Node) (objects : List Node) :
    (intern n objects).2[(intern n objects).1]? = some n := by
  unfold intern
  by_cases h : n ∈ objects
  · simp only [h, ↓reduceIte]
    have hlt : List.indexOf n objects < objects.length := List.indexOf_lt_length.2 h
    rw [List.getElem?_eq_getElem hlt]
    simp
  · simp [h]

theorem intern_mono (n : Node) (objects : List Node) (i : Nat) (m : Node)
    (h : objects[i]? = some m) : (intern n objects).2[i]? = some m := by
  unfold intern
  by_cases hn : n ∈ objects
  · simpa [hn] using h
  · simp only [hn, ↓reduceIte]
    have hlt : i < objects.length := by
      by_contra hc
      rw [List.getElem?_eq_none (by omega)] at h
      cases h
    rw [List.getElem?_append_left hlt]
    exact h

theorem Store.objLe_refl (s : Store) : s.objLe s := fun _ _ h => h

theorem Store.objLe_trans {s t u : Store} (h1 : s.objLe t) (h2 : t.objLe u) : s.objLe u :=
  fun h n hn => h2 h n (h1 h n hn)

theorem Store.put_get (s : Store) (n : Node) : (s.put n).2.getNode (s.put n).1 = some n := by
  simp only [Store.put, Store.getNode, unhash_hashOf]
  exact intern_get n s.objects

theorem Store.put_le (s : Store) (n : Node) : s.objLe (s.put n).2 := by
  intro h m hm
  simp only [Store.put, Store.getNode] at hm ⊢
  cases hu : unhash h with
  | none => rw [hu] at hm; cases hm
  | some i =>
    rw [hu] at hm
    simp only at hm ⊢
    exact intern_mono n s.objects i m hm

theorem Store.put_names (s : Store) (n : Node) : (s.put n).2.names = s.names := rfl

theorem Store.put_ne_nil (s : Store) (n : Node) : (s.put n).1 ≠ [] := hashOf_ne_nil _

/-! ## The store model: links and walks -/

theorem lookup_filter_append (x c : Str) (links : List (Str × Str)) :
    (links.filter (fun l => l.1 ≠ x) ++ [(x, c)]).lookup x = some c := by
  induction links with
  | nil => simp [List.lookup]
  | cons l links ih =>
    by_cases h : l.1 = x
    · simpa [List.filter, h] using ih
    · have hb : (x == l.1) = false := by simpa using fun e => h e.symm
      simp only [List.filter, h, ne_eq, not_false_eq_true, decide_True, List.cons_append]
      rw [show l = (l.1, l.2) from rfl, List.lookup_cons, hb]
      exact ih

theorem lookup_append_ne (x y c : Str) (hxy : y ≠ x) (links : List (Str × Str)) :
    (links ++ [(x, c)]).lookup y = links.lookup y := by
  induction links with
  | nil =>
    have hb : (y == x) = false := by simpa using hxy
    simp [List.lookup, hb]
  | cons l links ih =>
    rw [show l = (l.1, l.2) from rfl, List.cons_append, List.lookup_cons, List.lookup_cons, ih]

theorem lookup_filter_ne (x y : Str) (hxy : y ≠ x) (links : List (Str × Str)) :
    (links.filter (fun l => l.1 ≠ x)).lookup y = links.lookup y := by
  induction links with
  | nil => rfl
  | cons l links ih =>
    by_cases h : l.1 = x
    · have hb : (y == l.1) = false := by simpa [h] using hxy
      rw [show l = (l.1, l.2) from rfl, List.lookup_cons, hb]
      simpa [List.filter, h] using ih
    · simp only [List.filter, h, ne_eq, not_false_eq_true, decide_True]
      rw [show l = (l.1, l.2) from rfl, List.lookup_cons, List.lookup_cons, ih]

theorem lookup_filter_none (x : Str) (links : List (Str × Str)) (h : links.lookup x = none) :
    links.filter (fun l => l.1 ≠ x) = links := by
  induction links with
  | nil => rfl
  | cons l links ih =>
    rw [show l = (l.1, l.2) from rfl, List.lookup_cons] at h
    cases hb : (x == l.1) with
    | true => rw [hb] at h; cases h
    | false =>
      rw [hb] at h
      have hne : l.1 ≠ x := by
        intro e; rw [e] at hb; simp at hb
      simp only at h
      simp only [List.filter, hne, ne_eq, not_false_eq_true, decide_True]
      rw [ih h]

theorem Store.walk_append (s : Store) (h : Str) (a b : List Str) :
    s.walk h (a ++ b) = match s.walk h a with
      | .ok h1 => s.walk h1 b
      | .error e => .error e := by
  induction a generalizing h with
  | nil => simp [Store.walk]
  | cons x a ih =>
    simp only [List.cons_append, Store.walk]
    cases s.getNode h with
    | none => rfl
    | some n =>
      cases n with
      | file d => rfl
      | dir links =>
        simp only
        cases links.lookup x with
        | none => rfl
        | some h1 => exact ih h1

theorem Store.walk_mono {s t : Store} (hle : s.objLe t) (h : Str) (segs : List Str) (h1 : Str)
    (hw : s.walk h segs = .ok h1) : t.walk h segs = .ok h1 := by
  induction segs generalizing h with
  | nil => simpa [Store.walk] using hw
  | cons x segs ih =>
    simp only [Store.walk] at hw ⊢
    cases hn : s.getNode h with
    | none => rw [hn] at hw; cases hw
    | some n =>
      rw [hn] at hw
      rw [hle h n hn]
      cases n with
      | file d => cases hw
      | dir links =>
        simp only at hw ⊢
        cases hl : links.lookup x with
        | none => rw [hl] at hw; cases hw
        | some h2 =>
          rw [hl] at hw
          exact ih h2 hw

/-! ## Path elements, `Clean` and `Join` on well-formed paths -/

theorem splitSlash_ne_nil (p : Str) : splitSlash p ≠ [] := by
  induction p with
  | nil => simp [splitSlash]
  | cons c cs ih =>
    unfold splitSlash
    by_cases h : c = '/'
    · simp [h]
    · simp only [h, ↓reduceIte]
      cases hs : splitSlash cs with
      | nil => simp
      | cons s ss => simp

theorem splitSlash_cons_slash (cs : Str) : splitSlash ('/' :: cs) = [] :: splitSlash cs := by
  rw [splitSlash]; simp

theorem splitSlash_cons_ne (c : Char) (cs : Str) (h : c ≠ '/') :
    splitSlash (c :: cs) = match splitSlash cs with
      | [] => [[c]]
      | s :: ss => (c :: s) :: ss := by
  rw [splitSlash]; simp [h]

theorem splitSlash_append_slash (a b : Str) :
    splitSlash (a ++ '/' :: b) = splitSlash a ++ splitSlash b := by
  induction a with
  | nil => simp [splitSlash_cons_slash, splitSlash]
  | cons c cs ih =>
    simp only [List.cons_append]
    by_cases h : c = '/'
    · subst h
      rw [splitSlash_cons_slash, splitSlash_cons_slash, ih]
      rfl
    · rw [splitSlash_cons_ne c _ h, splitSlash_cons_ne c _ h, ih]
      cases hs : splitSlash cs with
      | nil => exact absurd hs (splitSlash_ne_nil cs)
      | cons s ss => simp

theorem splitSlash_no_slash (s : Str) (h : '/' ∉ s) : splitSlash s = [s] := by
  induction s with
  | nil => rfl
  | cons c cs ih =>
    unfold splitSlash
    have hc : c ≠ '/' := by intro e; apply h; simp [e]
    have hcs : '/' ∉ cs := by intro e; apply h; simp [e]
    simp [hc, ih hcs]

theorem splitSlash_mkPath (ss : List Str) (h : ∀ s ∈ ss, ValidSeg s) :
    splitSlash (mkPath ss) = if ss = [] then [[]] else [] :: ss := by
  induction ss with
  | nil => rfl
  | cons s ss ih =>
    have hs := (h s (List.mem_cons_self _ _)).2
    have ih2 := ih (fun t ht => h t (List.mem_cons_of_mem _ ht))
    simp only [mkPath, reduceCtorEq, ↓reduceIte]
    cases ss with
    | nil => simp [mkPath, splitSlash, splitSlash_no_slash s hs]
    | cons t ts =>
      simp only [reduceCtorEq, ↓reduceIte, mkPath] at ih2
      have e1 : splitSlash ('/' :: (s ++ mkPath (t :: ts)))
          = [] :: splitSlash (s ++ mkPath (t :: ts)) := by
        rw [splitSlash]; simp
      have e2 : splitSlash ('/' :: (t ++ mkPath ts)) = [] :: splitSlash (t ++ mkPath ts) := by
        rw [splitSlash]; simp
      rw [e2] at ih2
      rw [e1]
      simp only [mkPath]
      rw [splitSlash_append_slash, splitSlash_no_slash s hs]
      simp only [List.cons.injEq, true_and] at ih2
      rw [ih2]
      simp

theorem pathElems_mkPath (ss : List Str) (h : ∀ s ∈ ss, ValidSeg s) :
    pathElems (mkPath ss) = ss := by
  unfold pathElems
  rw [splitSlash_mkPath ss h]
  have hf : ss.filter (fun e => e ≠ []) = ss := by
    rw [List.filter_eq_self]
    intro s hs
    simpa using (h s hs).1
  by_cases hn : ss = []
  · simp [hn]
  · simp only [hn, ↓reduceIte]
    rw [List.filter_cons]
    simp only [ne_eq, not_true_eq_false, decide_False, Bool.false_eq_true, ↓reduceIte]
    exact hf

theorem pathElems_append_slash (a b : Str) :
    pathElems (a ++ '/' :: b) = pathElems a ++ pathElems b := by
  simp [pathElems, splitSlash_append_slash]

theorem pathElems_nil : pathElems [] = [] := by simp [pathElems, splitSlash]

/-- A path with a trailing slash has the elements of the path without it. -/
theorem pathElems_mkPath_slash (ss : List Str) (h : ∀ s ∈ ss, ValidSeg s) :
    pathElems (mkPath ss ++ ['/']) = ss := by
  rw [pathElems_append_slash, pathElems_mkPath ss h, pathElems_nil]
  simp

theorem cleanElems_clean (rooted : Bool) (es out : List Str)
    (h : ∀ e ∈ es, e = [] ∨ (e ≠ ['.'] ∧ e ≠ ['.', '.'])) :
    cleanElems rooted es out = out.reverse ++ es.filter (fun e => e ≠ []) := by
  induction es generalizing out with
  | nil => simp [cleanElems]
  | cons e es ih =>
    have ih2 := fun o => ih o (fun t ht => h t (List.mem_cons_of_mem _ ht))
    rcases h e (List.mem_cons_self _ _) with he | ⟨h1, h2⟩
    · subst he
      simp [cleanElems, ih2]
    · by_cases he : e = []
      · subst he
        simp [cleanElems, ih2]
      · simp [cleanElems, he, h1, h2, ih2, List.filter]

/-- `Clean` of a rooted path whose elements are empty or kept as they are. -/
theorem Clean_rooted (p : Str) (h : ∀ e ∈ splitSlash ('/' :: p), e = [] ∨ (e ≠ ['.'] ∧ e ≠ ['.', '.']))
    (hne : pathElems ('/' :: p) ≠ []) : Clean ('/' :: p) = mkPath (pathElems ('/' :: p)) := by
  unfold Clean
  simp only [beq_self_eq_true, ↓reduceIte]
  rw [cleanElems_clean true _ [] h]
  unfold pathElems at hne ⊢
  simp only [List.reverse_nil, List.nil_append, hne, ↓reduceIte]

theorem splitSlash_mkPath_clean (ss : List Str) (h : ∀ s ∈ ss, CleanSeg s) :
    ∀ e ∈ splitSlash (mkPath ss), e = [] ∨ (e ≠ ['.'] ∧ e ≠ ['.', '.']) := by
  intro e he
  rw [splitSlash_mkPath ss (fun s hs => (h s hs).1)] at he
  by_cases hn : ss = []
  · simp [hn] at he; left; exact he
  · simp only [hn, ↓reduceIte, List.mem_cons] at he
    rcases he with he | he
    · left; exact he
    · right; exact (h e he).2

/-- Joining `/r1/.../rk` and `/p1/.../pn` gives `/r1/.../rk/p1/.../pn`. -/
theorem Join_mkPath (rs ps : List Str) (hrs : ∀ s ∈ rs, CleanSeg s) (hps : ∀ s ∈ ps, CleanSeg s)
    (hne : rs ≠ []) : Join [mkPath rs, mkPath ps] = mkPath (rs ++ ps) := by
  obtain ⟨r, rs1, rfl⟩ : ∃ r rs1, rs = r :: rs1 := List.exists_cons_of_ne_nil hne
  have hr1 : mkPath (r :: rs1) ≠ [] := by simp [mkPath]
  have hvr : ∀ s ∈ r :: rs1, ValidSeg s := fun s hs => (hrs s hs).1
  have hvp : ∀ s ∈ ps, ValidSeg s := fun s hs => (hps s hs).1
  cases ps with
  | nil =>
    have : Join [mkPath (r :: rs1), mkPath []] = Clean (mkPath (r :: rs1)) := by
      simp [Join, List.filter, hr1, mkPath]
    rw [this]
    have hc := Clean_rooted (r ++ mkPath rs1) (splitSlash_mkPath_clean (r :: rs1) hrs)
      (by rw [show '/' :: (r ++ mkPath rs1) = mkPath (r :: rs1) from rfl,
            pathElems_mkPath _ hvr]; simp)
    rw [show '/' :: (r ++ mkPath rs1) = mkPath (r :: rs1) from rfl, pathElems_mkPath _ hvr] at hc
    simpa using hc
  | cons p ps1 =>
    have hp1 : mkPath (p :: ps1) ≠ [] := by simp [mkPath]
    have : Join [mkPath (r :: rs1), mkPath (p :: ps1)]
        = Clean (mkPath (r :: rs1) ++ '/' :: mkPath (p :: ps1)) := by
      simp [Join, List.filter, hr1, hp1, mkPath]
    rw [this]
    have he : pathElems (mkPath (r :: rs1) ++ '/' :: mkPath (p :: ps1))
        = (r :: rs1) ++ (p :: ps1) := by
      rw [pathElems_append_slash, pathElems_mkPath _ hvr, pathElems_mkPath _ hvp]
    have hc := Clean_rooted ((r ++ mkPath rs1) ++ '/' :: mkPath (p :: ps1))
      (by
        rw [show '/' :: ((r ++ mkPath rs1) ++ '/' :: mkPath (p :: ps1))
            = mkPath (r :: rs1) ++ '/' :: mkPath (p :: ps1) from rfl, splitSlash_append_slash]
        intro e hmem
        rcases List.mem_append.1 hmem with h1 | h1
        · exact splitSlash_mkPath_clean _ hrs e h1
        · exact splitSlash_mkPath_clean _ hps e h1)
      (by
        rw [show '/' :: ((r ++ mkPath rs1) ++ '/' :: mkPath (p :: ps1))
            = mkPath (r :: rs1) ++ '/' :: mkPath (p :: ps1) from rfl, he]
        simp)
    rw [show '/' :: ((r ++ mkPath rs1) ++ '/' :: mkPath (p :: ps1))
        = mkPath (r :: rs1) ++ '/' :: mkPath (p :: ps1) from rfl, he] at hc
    exact hc

/-- Joining `/a1/.../ak` and the name `x` gives `/a1/.../ak/x`. -/
theorem Join_name (as : List Str) (x : Str) (has : ∀ s ∈ as, CleanSeg s) (hx : CleanSeg x)
    (hne : as ≠ []) : Join [mkPath as, x] = mkPath (as ++ [x]) := by
  obtain ⟨r, rs1, rfl⟩ : ∃ r rs1, as = r :: rs1 := List.exists_cons_of_ne_nil hne
  have hr1 : mkPath (r :: rs1) ≠ [] := by simp [mkPath]
  have hva : ∀ s ∈ r :: rs1, ValidSeg s := fun s hs => (has s hs).1
  have : Join [mkPath (r :: rs1), x] = Clean (mkPath (r :: rs1) ++ '/' :: x) := by
    simp [Join, List.filter, hr1, hx.1.1, mkPath]
  rw [this]
  have hsx : splitSlash x = [x] := splitSlash_no_slash x hx.1.2
  have he : pathElems (mkPath (r :: rs1) ++ '/' :: x) = (r :: rs1) ++ [x] := by
    rw [pathElems_append_slash, pathElems_mkPath _ hva]
    simp [pathElems, hsx, hx.1.1]
  have hc := Clean_rooted ((r ++ mkPath rs1) ++ '/' :: x)
    (by
      rw [show '/' :: ((r ++ mkPath rs1) ++ '/' :: x) = mkPath (r :: rs1) ++ '/' :: x from rfl,
        splitSlash_append_slash, hsx]
      intro e hmem
      rcases List.mem_append.1 hmem with h1 | h1
      · exact splitSlash_mkPath_clean _ has e h1
      · rw [List.mem_singleton] at h1; subst h1; right; exact hx.2)
    (by
      rw [show '/' :: ((r ++ mkPath rs1) ++ '/' :: x) = mkPath (r :: rs1) ++ '/' :: x from rfl, he]
      simp)
  rw [show '/' :: ((r ++ mkPath rs1) ++ '/' :: x) = mkPath (r :: rs1) ++ '/' :: x from rfl,
    he] at hc
  exact hc

/-! ## The store model: the calls of a bubble pass -/

theorem ipns_path_valid (N : Str) (hN : ValidSeg N) (segs : List Str)
    (hsegs : ∀ s ∈ segs, ValidSeg s) : ∀ s ∈ ipns :: N :: segs, ValidSeg s := by
  intro s hs
  simp only [List.mem_cons] at hs
  rcases hs with rfl | rfl | hs
  · simp [ValidSeg, ipns]
  · exact hN
  · exact hsegs s hs

theorem resolve_of_elems (s : Store) (p N : Str) (segs : List Str)
    (h : pathElems p = ipns :: N :: segs) :
    s.resolve p = match s.names.lookup N with
      | none => .error unresolvedName
      | some h => s.walk h segs := by
  unfold Store.resolve
  rw [h]
  simp [ipns]

theorem resolve_ipns (s : Store) (N : Str) (hN : ValidSeg N) (segs : List Str)
    (hsegs : ∀ s ∈ segs, ValidSeg s) :
    s.resolve (mkPath (ipns :: N :: segs)) = match s.names.lookup N with
      | none => .error unresolvedName
      | some h => s.walk h segs :=
  resolve_of_elems s _ N segs (pathElems_mkPath _ (ipns_path_valid N hN segs hsegs))

theorem fileList_state (p : Str) (s : Store) : (storeShell.FileList p s).2 = s := by
  simp only [storeShell, Store.FileList]
  cases s.resolve p with
  | error e => rfl
  | ok h =>
    simp only
    cases s.getNode h with
    | none => rfl
    | some n => cases n <;> rfl

theorem cat_state (p : Str) (s : Store) : (storeShell.Cat p s).2 = s := by
  simp only [storeShell, Store.Cat]
  cases s.resolve p with
  | error e => rfl
  | ok h =>
    simp only
    cases s.getNode h with
    | none => rfl
    | some n => cases n <;> rfl

theorem noLinkError_begins (name h : Str) : HasPrefix (noLinkError name h) noLinkNamed = true := by
  unfold noLinkError
  simp only [List.append_assoc]
  exact hasPrefix_append _ _

/-- A walk fails with the store's `no link named` error or because a block is
missing. -/
theorem walk_error (s : Store) (h : Str) (segs : List Str) (e : Str)
    (hw : s.walk h segs = .error e) : HasPrefix e noLinkNamed = true ∨ e = blockNotFound := by
  induction segs generalizing h with
  | nil => simp [Store.walk] at hw
  | cons x segs ih =>
    simp only [Store.walk] at hw
    cases hn : s.getNode h with
    | none => rw [hn] at hw; right; simpa using hw.symm
    | some n =>
      rw [hn] at hw
      cases n with
      | file d =>
        simp only [Except.error.injEq] at hw
        left; rw [← hw]; exact noLinkError_begins _ _
      | dir links =>
        simp only at hw
        cases hl : links.lookup x with
        | none =>
          rw [hl] at hw
          simp only [Except.error.injEq] at hw
          left; rw [← hw]; exact noLinkError_begins _ _
        | some h2 => rw [hl] at hw; exact ih h2 hw

/-- What `oldParent` returns in the store model, for a parent `/ipns/N/pre`
under a published name: the hash the parent resolves to, the store unchanged;
or, when no link leads there, the hash of an empty directory put in the store. -/
theorem oldParent_store (N : Str) (hN : ValidSeg N) (pre : List Str)
    (hpre : ∀ s ∈ pre, ValidSeg s) (w : World Store) (r0 : Str)
    (hr0 : w.st.names.lookup N = some r0) :
    (∀ hp n, w.st.walk r0 pre = .ok hp → w.st.getNode hp = some n →
      (oldParent storeShell (mkPath (ipns :: N :: pre)) w).1 = .ok hp ∧
      (oldParent storeShell (mkPath (ipns :: N :: pre)) w).2.st = w.st) ∧
    (∀ e, w.st.walk r0 pre = .error e → HasPrefix e noLinkNamed = true →
      (oldParent storeShell (mkPath (ipns :: N :: pre)) w).1 = .ok (w.st.put (.dir [])).1 ∧
      (oldParent storeShell (mkPath (ipns :: N :: pre)) w).2.st = (w.st.put (.dir [])).2) ∧
    (∀ hp, (oldParent storeShell (mkPath (ipns :: N :: pre)) w).1 = .ok hp →
      (∃ n, w.st.walk r0 pre = .ok hp ∧ w.st.getNode hp = some n ∧
        (oldParent storeShell (mkPath (ipns :: N :: pre)) w).2.st = w.st) ∨
      (∃ e, w.st.walk r0 pre = .error e ∧ hp = (w.st.put (.dir [])).1 ∧
        (oldParent storeShell (mkPath (ipns :: N :: pre)) w).2.st = (w.st.put (.dir [])).2)) := by
  have hres := resolve_ipns w.st N hN pre hpre
  rw [hr0] at hres
  simp only at hres
  unfold oldParent callFileList callNewObject
  simp only [storeShell, Store.FileList, Store.NewObject, hres]
  cases hw : w.st.walk r0 pre with
  | error e =>
    simp only
    by_cases hp : HasPrefix e noLinkNamed = true
    · simp [hp]
    · simp only [Bool.not_eq_true] at hp
      simp [hp]
  | ok h =>
    simp only
    cases hn : w.st.getNode h with
    | none =>
      have : HasPrefix blockNotFound noLinkNamed = false := by decide
      simp only [this]
      simp
      intro hp n e; subst e; simp [hn]
    | some n =>
      cases n with
      | file d =>
        simp
        exact ⟨fun hp n e _ => e, _, hn⟩
      | dir links =>
        simp
        exact ⟨fun hp n e _ => e, _, hn⟩

theorem patch_rm_dir (root x : Str) (s : Store) (links : List (Str × Str))
    (hn : s.getNode root = some (.dir links)) :
    storeShell.Patch root rmLink [x] s =
      if (links.lookup x).isSome then
        (.ok (s.put (.dir (links.filter (fun l => l.1 ≠ x)))).1,
          (s.put (.dir (links.filter (fun l => l.1 ≠ x)))).2)
      else (.error merkledagNotFound, s) := by
  simp [storeShell, Store.Patch, hn]

theorem patch_add_dir (root x c : Str) (s : Store) (links : List (Str × Str))
    (hn : s.getNode root = some (.dir links)) :
    storeShell.Patch root addLink [x, c] s =
      (.ok (s.put (.dir (links ++ [(x, c)]))).1, (s.put (.dir (links ++ [(x, c)]))).2) := by
  have hne : addLink ≠ rmLink := by decide
  simp [storeShell, Store.Patch, hn, hne]

/-- What `relink` does in the store model: on a directory it returns the hash of
the directory with the link `x` replaced by `x → c`; on anything else it fails. -/
theorem relink_store (hp x c : Str) (w : World Store) :
    (∀ links, w.st.getNode hp = some (.dir links) →
      ∃ c1, (relink storeShell hp x c w).1 = .ok c1 ∧
        (relink storeShell hp x c w).2.st.getNode c1
          = some (.dir (links.filter (fun l => l.1 ≠ x) ++ [(x, c)])) ∧
        w.st.objLe (relink storeShell hp x c w).2.st ∧
        (relink storeShell hp x c w).2.st.names = w.st.names) ∧
    (∀ c1, (relink storeShell hp x c w).1 = .ok c1 →
      ∃ links, w.st.getNode hp = some (.dir links)) := by
  cases hn : w.st.getNode hp with
  | none =>
    have hb : blockNotFound ≠ merkledagNotFound := by decide
    refine ⟨by simp, ?_⟩
    intro c1 h
    simp [relink, callPatch, storeShell, Store.Patch, hn, hb] at h
  | some n =>
    cases n with
    | file d =>
      have hne : addLink ≠ rmLink := by decide
      refine ⟨by simp, ?_⟩
      intro c1 h
      simp [relink, callPatch, storeShell, Store.Patch, hn, hne] at h
    | dir links =>
      refine ⟨?_, fun _ _ => ⟨links, rfl⟩⟩
      intro links1 hl
      simp only [Option.some.injEq, Node.dir.injEq] at hl
      subst hl
      unfold relink callPatch
      rw [patch_rm_dir hp x w.st links hn]
      cases hlk : links.lookup x with
      | some h1 =>
        simp only [Option.isSome_some, ↓reduceIte]
        have hg := Store.put_get w.st (.dir (links.filter (fun l => l.1 ≠ x)))
        rw [patch_add_dir _ x c _ _ hg]
        refine ⟨_, rfl, Store.put_get _ _, ?_, rfl⟩
        exact Store.objLe_trans (Store.put_le _ _) (Store.put_le _ _)
      | none =>
        simp only [Option.isSome_none, Bool.false_eq_true, ↓reduceIte]
        rw [patch_add_dir _ x c _ _ hn]
        refine ⟨_, rfl, ?_, Store.put_le _ _, rfl⟩
        rw [lookup_filter_none x links hlk]
        exact Store.put_get _ _

theorem Store.ancestorsOk_mono {s t : Store} (hle : s.objLe t) (h : Str) (segs : List Str)
    (ha : s.ancestorsOk h segs = true) : t.ancestorsOk h segs = true := by
  induction segs generalizing h with
  | nil => rfl
  | cons x segs ih =>
    simp only [Store.ancestorsOk] at ha ⊢
    cases hn : s.getNode h with
    | none => rw [hn] at ha; cases ha
    | some n =>
      rw [hn] at ha
      rw [hle h n hn]
      cases n with
      | file d => cases ha
      | dir links =>
        simp only at ha ⊢
        cases hl : links.lookup x with
        | none => rfl
        | some h1 => rw [hl] at ha; exact ih h1 ha

theorem Store.ancestorsOk_snoc (s : Store) (h : Str) (pre : List Str) (x : Str)
    (ha : s.ancestorsOk h (pre ++ [x]) = true) :
    s.ancestorsOk h pre = true ∧
      ((∃ hp links, s.walk h pre = .ok hp ∧ s.getNode hp = some (.dir links)) ∨
        (∃ e, s.walk h pre = .error e ∧ HasPrefix e noLinkNamed = true)) := by
  induction pre generalizing h with
  | nil =>
    simp only [List.nil_append, Store.ancestorsOk] at ha
    refine ⟨rfl, Or.inl ?_⟩
    cases hn : s.getNode h with
    | none => rw [hn] at ha; cases ha
    | some n =>
      rw [hn] at ha
      cases n with
      | file d => cases ha
      | dir links => exact ⟨h, links, rfl, hn⟩
  | cons y pre ih =>
    simp only [List.cons_append, Store.ancestorsOk] at ha
    simp only [Store.ancestorsOk, Store.walk]
    cases hn : s.getNode h with
    | none => rw [hn] at ha; cases ha
    | some n =>
      rw [hn] at ha
      cases n with
      | file d => cases ha
      | dir links =>
        simp only at ha ⊢
        cases hl : links.lookup y with
        | none => exact ⟨rfl, Or.inr ⟨_, rfl, noLinkError_begins _ _⟩⟩
        | some h1 => rw [hl] at ha; exact ih h1 ha

theorem oldParent_store_unresolved (N : Str) (hN : ValidSeg N) (pre : List Str)
    (hpre : ∀ s ∈ pre, ValidSeg s) (w : World Store) (hr0 : w.st.names.lookup N = none) :
    ∃ e, (oldParent storeShell (mkPath (ipns :: N :: pre)) w).1 = .error e := by
  have hres := resolve_ipns w.st N hN pre hpre
  rw [hr0] at hres
  simp only at hres
  have hp : HasPrefix unresolvedName noLinkNamed = false := by decide
  unfold oldParent callFileList
  simp [storeShell, Store.FileList, hres, hp]

/-- In the store model, a bubble pass for `/ipns/N/s1/.../sn` that returns
success leaves a store in which `N` resolves to a root from which the path
`s1/.../sn` leads to the hash given, and which holds every object it held. -/
theorem bubble_store_ok (N : Str) (hN : ValidSeg N) (segs : List Str)
    (hsegs : ∀ s ∈ segs, ValidSeg s) (c : Str) (fuel : Nat) (w w1 : World Store)
    (h : driver.addBubblePublish storeShell fuel (mkPath (ipns :: N :: segs)) c w
      = (some (.ok ()), w1)) :
    ∃ r1, w1.st.names.lookup N = some r1 ∧ w1.st.walk r1 segs = .ok c ∧ w.st.objLe w1.st := by
  induction segs using List.reverseRecOn generalizing c fuel w with
  | nil =>
    cases fuel with
    | zero => simp [driver.addBubblePublish] at h
    | succ fuel =>
      obtain ⟨ht, hc⟩ := mkPath_ipns_name N hN.2
      rw [addBubblePublish_publish storeShell fuel _ c w ht, hc] at h
      simp only [callPublish, storeShell, Store.Publish, Prod.mk.injEq, true_and] at h
      subst h
      exact ⟨c, by simp [List.lookup], rfl, fun _ _ hn => hn⟩
  | append_singleton pre x ih =>
    have hpre : ∀ s ∈ pre, ValidSeg s := fun s hs => hsegs s (List.mem_append_left _ hs)
    have hx : ValidSeg x := hsegs x (by simp)
    cases fuel with
    | zero => simp [driver.addBubblePublish] at h
    | succ fuel =>
      have hsp := split_mkPath (ipns :: N :: pre) x (ipns_path_valid N hN pre hpre) hx.2
      have hne : TrimRightSlash (Split (mkPath ((ipns :: N :: pre) ++ [x]))).1 ≠ ipnsDir := by
        rw [hsp.1]; exact mkPath_ipns_ne N _
      rw [show ipns :: N :: (pre ++ [x]) = (ipns :: N :: pre) ++ [x] from rfl,
        addBubblePublish_succ storeShell fuel _ c w hne, hsp.1, hsp.2] at h
      cases hlk : w.st.names.lookup N with
      | none =>
        obtain ⟨e, he⟩ := oldParent_store_unresolved N hN pre hpre w hlk
        rcases h1 : oldParent storeShell (mkPath (ipns :: N :: pre)) w with ⟨r1, w2⟩
        rw [h1] at he h
        simp only at he
        subst he
        simp at h
      | some r0 =>
        obtain ⟨-, -, hinv⟩ := oldParent_store N hN pre hpre w r0 hlk
        rcases h1 : oldParent storeShell (mkPath (ipns :: N :: pre)) w with ⟨r1, w2⟩
        rw [h1] at hinv h
        simp only at hinv h
        cases r1 with
        | error e => simp at h
        | ok hp =>
          simp only at h
          have hle1 : w.st.objLe w2.st := by
            rcases hinv hp rfl with ⟨n, _, _, hst⟩ | ⟨e, _, _, hst⟩
            · rw [hst]; exact Store.objLe_refl _
            · rw [hst]; exact Store.put_le _ _
          obtain ⟨hdir, hrinv⟩ := relink_store hp x c w2
          rcases h2 : relink storeShell hp x c w2 with ⟨r2, w3⟩
          rw [h2] at hdir hrinv h
          simp only at hdir hrinv h
          cases r2 with
          | error e => simp at h
          | ok c1 =>
            simp only at h
            obtain ⟨links, hlinks⟩ := hrinv c1 rfl
            obtain ⟨c2, hc2, hnode, hle2, _⟩ := hdir links hlinks
            simp only [Except.ok.injEq] at hc2
            subst hc2
            obtain ⟨r1, hr1, hwalk, hle3⟩ := ih hpre c1 fuel w3 h
            refine ⟨r1, hr1, ?_, Store.objLe_trans hle1 (Store.objLe_trans hle2 hle3)⟩
            rw [Store.walk_append, hwalk]
            simp only [Store.walk, hle3 _ _ hnode, lookup_filter_append]

/-- In the store model, a bubble pass for `/ipns/N/s1/.../sn` returns success
within `n + 1` iterations when `N` is published and no proper ancestor of the
path is a file or a missing block. -/
theorem bubble_store_succeeds (N : Str) (hN : ValidSeg N) (segs : List Str)
    (hsegs : ∀ s ∈ segs, ValidSeg s) (c : Str) (fuel : Nat) (w : World Store) (r0 : Str)
    (hr0 : w.st.names.lookup N = some r0) (hanc : w.st.ancestorsOk r0 segs = true)
    (hfuel : segs.length + 1 ≤ fuel) :
    ∃ w1, driver.addBubblePublish storeShell fuel (mkPath (ipns :: N :: segs)) c w
      = (some (.ok ()), w1) := by
  induction segs using List.reverseRecOn generalizing c fuel w with
  | nil =>
    obtain ⟨fuel, rfl⟩ : ∃ f, fuel = f + 1 := ⟨fuel - 1, by simp at hfuel; omega⟩
    obtain ⟨ht, hc⟩ := mkPath_ipns_name N hN.2
    rw [addBubblePublish_publish storeShell fuel _ c w ht, hc]
    exact ⟨_, rfl⟩
  | append_singleton pre x ih =>
    have hpre : ∀ s ∈ pre, ValidSeg s := fun s hs => hsegs s (List.mem_append_left _ hs)
    have hx : ValidSeg x := hsegs x (by simp)
    obtain ⟨fuel, rfl⟩ : ∃ f, fuel = f + 1 := ⟨fuel - 1, by simp at hfuel; omega⟩
    have hsp := split_mkPath (ipns :: N :: pre) x (ipns_path_valid N hN pre hpre) hx.2
    have hne : TrimRightSlash (Split (mkPath ((ipns :: N :: pre) ++ [x]))).1 ≠ ipnsDir := by
      rw [hsp.1]; exact mkPath_ipns_ne N _
    rw [show ipns :: N :: (pre ++ [x]) = (ipns :: N :: pre) ++ [x] from rfl,
      addBubblePublish_succ storeShell fuel _ c w hne, hsp.1, hsp.2]
    obtain ⟨hanc1, hwalk⟩ := Store.ancestorsOk_snoc w.st r0 pre x hanc
    obtain ⟨hfound, hmissing, -⟩ := oldParent_store N hN pre hpre w r0 hr0
    rcases h1 : oldParent storeShell (mkPath (ipns :: N :: pre)) w with ⟨r1, w2⟩
    rw [h1] at hfound hmissing
    simp only at hfound hmissing
    have hstep : ∃ hp links, r1 = .ok hp ∧ w2.st.getNode hp = some (.dir links) ∧
        w.st.objLe w2.st ∧ w2.st.names = w.st.names := by
      rcases hwalk with ⟨hp, links, hw, hn⟩ | ⟨e, hw, hpfx⟩
      · obtain ⟨hr, hst⟩ := hfound hp _ hw hn
        exact ⟨hp, links, hr, by rw [hst]; exact hn, by rw [hst]; exact Store.objLe_refl _,
          by rw [hst]⟩
      · obtain ⟨hr, hst⟩ := hmissing e hw hpfx
        exact ⟨_, [], hr, by rw [hst]; exact Store.put_get _ _,
          by rw [hst]; exact Store.put_le _ _, by rw [hst]; rfl⟩
    obtain ⟨hp, links, rfl, hn2, hle1, hnames1⟩ := hstep
    simp only
    obtain ⟨hdir, -⟩ := relink_store hp x c w2
    obtain ⟨c1, hc1, -, hle2, hnames2⟩ := hdir links hn2
    rcases h2 : relink storeShell hp x c w2 with ⟨r2, w3⟩
    rw [h2] at hc1 hle2 hnames2
    simp only at hc1 hle2 hnames2
    subst hc1
    simp only
    exact ih hpre c1 fuel w3 (by rw [hnames2, hnames1]; exact hr0)
      (Store.ancestorsOk_mono (Store.objLe_trans hle1 hle2) r0 pre hanc1)
      (by simp at hfuel ⊢; omega)

/-! ## The store model: writes and reads -/

theorem Store.ancestorsOk_of_walk (s : Store) (h : Str) (segs : List Str) (h1 : Str)
    (hw : s.walk h segs = .ok h1) : s.ancestorsOk h segs = true := by
  induction segs generalizing h with
  | nil => rfl
  | cons x segs ih =>
    simp only [Store.walk] at hw
    simp only [Store.ancestorsOk]
    cases hn : s.getNode h with
    | none => rw [hn] at hw; cases hw
    | some n =>
      rw [hn] at hw
      cases n with
      | file d => cases hw
      | dir links =>
        simp only at hw ⊢
        cases hl : links.lookup x with
        | none => rfl
        | some h2 => rw [hl] at hw; exact ih h2 hw

theorem cat_store (s : Store) (N : Str) (hN : ValidSeg N) (segs : List Str)
    (hsegs : ∀ t ∈ segs, ValidSeg t) (r : Str) (hr : s.names.lookup N = some r) :
    (storeShell.Cat (mkPath (ipns :: N :: segs)) s).1 =
      match s.walk r segs with
      | .error e => .error e
      | .ok h =>
        match s.getNode h with
        | none => .error blockNotFound
        | some (.dir _) => .error isDirectoryError
        | some (.file data) => .ok data := by
  have hres := resolve_ipns s N hN segs hsegs
  rw [hr] at hres
  simp only at hres
  simp only [storeShell, Store.Cat, hres]
  cases s.walk r segs with
  | error e => rfl
  | ok h =>
    simp only
    cases s.getNode h with
    | none => rfl
    | some n => cases n <;> rfl

/-- In the store model, handing bytes to `Add` and bubbling their hash to
`/ipns/N/s1/.../sn` succeeds when `N` is published and no proper ancestor of
the path is a file, and leaves the bytes as the file at that path. -/
theorem addAndBubble_store (N : Str) (hN : ValidSeg N) (segs : List Str)
    (hsegs : ∀ s ∈ segs, ValidSeg s) (nn : Int) (b : Bytes) (fuel : Nat) (w : World Store)
    (r0 : Str) (hr0 : w.st.names.lookup N = some r0) (hanc : w.st.ancestorsOk r0 segs = true)
    (hfuel : segs.length + 1 ≤ fuel) :
    ∃ w1 r1 hb, addAndBubble storeShell fuel (mkPath (ipns :: N :: segs)) nn b w
        = (some (nn, .ok ()), w1) ∧
      w1.st.names.lookup N = some r1 ∧ w1.st.walk r1 segs = .ok hb ∧
      w1.st.getNode hb = some (.file b) := by
  unfold addAndBubble callAdd
  simp only [storeShell, Store.Add]
  obtain ⟨w1, hw1⟩ := bubble_store_succeeds N hN segs hsegs (w.st.put (.file b)).1 fuel
    ⟨(w.st.put (.file b)).2, Event.add b (.ok (w.st.put (.file b)).1) :: w.log⟩ r0 hr0
    (Store.ancestorsOk_mono (Store.put_le _ _) r0 segs hanc) hfuel
  obtain ⟨r1, hr1, hwalk, hle⟩ := bubble_store_ok N hN segs hsegs _ fuel _ w1 hw1
  simp only [storeShell] at hw1
  rw [hw1]
  exact ⟨w1, r1, _, rfl, hr1, hwalk, hle _ _ (Store.put_get _ _)⟩

theorem copyN_zero (old : Bytes) : CopyN old 0 = ([], 0, false) := by
  simp [CopyN]

section StoreWrites
variable (d : driver) (p N : Str) (full : List Str)

/-- A write over a file of the store model keeps its first `offset` bytes. -/
theorem writeStream_store_file (hN : ValidSeg N) (hfull : ∀ s ∈ full, ValidSeg s)
    (hpath : driver.fullPath d p = mkPath (ipns :: N :: full))
    (offset : Int) (new old : Bytes) (fuel : Nat) (w : World Store) (r0 h : Str)
    (hr0 : w.st.names.lookup N = some r0) (hwalk : w.st.walk r0 full = .ok h)
    (hfile : w.st.getNode h = some (.file old))
    (h0 : 0 ≤ offset) (h1 : offset ≤ (old.length : Int)) (hfuel : full.length + 1 ≤ fuel) :
    ∃ w1 r1 hb, driver.WriteStream storeShell d fuel p offset new w
        = (some (offset, .ok ()), w1) ∧
      w1.st.names.lookup N = some r1 ∧ w1.st.walk r1 full = .ok hb ∧
      w1.st.getNode hb = some (.file (old.take offset.toNat ++ new)) := by
  have hcat := cat_store w.st N hN full hfull r0 hr0
  rw [hwalk] at hcat
  simp only [hfile] at hcat
  unfold driver.WriteStream callCat
  rw [hpath, hcat]
  simp only [copyN_within old offset h0 h1]
  exact addAndBubble_store N hN full hfull offset _ fuel _ r0
    (by rw [cat_state]; exact hr0)
    (by rw [cat_state]; exact Store.ancestorsOk_of_walk _ _ _ _ hwalk) hfuel

/-- A write where the store model has nothing stores the bytes given. -/
theorem writeStream_store_absent (hN : ValidSeg N) (hfull : ∀ s ∈ full, ValidSeg s)
    (hpath : driver.fullPath d p = mkPath (ipns :: N :: full))
    (offset : Int) (new : Bytes) (fuel : Nat) (w : World Store) (r0 e : Str)
    (hr0 : w.st.names.lookup N = some r0) (hwalk : w.st.walk r0 full = .error e)
    (hpfx : HasPrefix e noLinkNamed = true) (hanc : w.st.ancestorsOk r0 full = true)
    (hfuel : full.length + 1 ≤ fuel) :
    ∃ w1 r1 hb, driver.WriteStream storeShell d fuel p offset new w = (some (0, .ok ()), w1) ∧
      w1.st.names.lookup N = some r1 ∧ w1.st.walk r1 full = .ok hb ∧
      w1.st.getNode hb = some (.file new) := by
  have hcat := cat_store w.st N hN full hfull r0 hr0
  rw [hwalk] at hcat
  simp only at hcat
  unfold driver.WriteStream callCat
  rw [hpath, hcat]
  simp only [hpfx, ↓reduceIte]
  exact addAndBubble_store N hN full hfull 0 _ fuel _ r0
    (by rw [cat_state]; exact hr0) (by rw [cat_state]; exact hanc) hfuel

theorem putContent_store (hN : ValidSeg N) (hfull : ∀ s ∈ full, ValidSeg s)
    (hpath : driver.fullPath d p = mkPath (ipns :: N :: full))
    (b : Bytes) (fuel : Nat) (w : World Store) (r0 : Str)
    (hr0 : w.st.names.lookup N = some r0) (hanc : w.st.ancestorsOk r0 full = true)
    (hfuel : full.length + 1 ≤ fuel) :
    ∃ w1 r1 hb, driver.PutContent storeShell d fuel p b w = (some (.ok ()), w1) ∧
      w1.st.names.lookup N = some r1 ∧ w1.st.walk r1 full = .ok hb ∧
      w1.st.getNode hb = some (.file b) := by
  obtain ⟨w1, r1, hb, hab, hr1, hw, hn⟩ :=
    addAndBubble_store N hN full hfull 0 b fuel w r0 hr0 hanc hfuel
  refine ⟨w1, r1, hb, ?_, hr1, hw, hn⟩
  unfold addAndBubble at hab
  unfold driver.PutContent
  rw [hpath]
  rcases hadd : callAdd storeShell b w with ⟨ra, wa⟩
  rw [hadd] at hab
  cases ra with
  | error e => simp at hab
  | ok contentHash =>
    simp only at hab ⊢
    rcases hbub : driver.addBubblePublish storeShell fuel (mkPath (ipns :: N :: full))
      contentHash wa with ⟨rb, wb⟩
    rw [hbub] at hab
    cases rb with
    | none => simp at hab
    | some err =>
      simp only [Prod.mk.injEq, Option.some.injEq] at hab
      obtain ⟨⟨_, herr⟩, hwb⟩ := hab
      rw [herr, hwb]

theorem getContent_store (hN : ValidSeg N) (hfull : ∀ s ∈ full, ValidSeg s)
    (hpath : driver.fullPath d p = mkPath (ipns :: N :: full))
    (w : World Store) (r1 hb : Str) (data : Bytes)
    (hr1 : w.st.names.lookup N = some r1) (hwalk : w.st.walk r1 full = .ok hb)
    (hfile : w.st.getNode hb = some (.file data)) :
    (driver.GetContent storeShell d p w).1 = .ok data := by
  have hcat := cat_store w.st N hN full hfull r1 hr1
  rw [hwalk] at hcat
  simp only [hfile] at hcat
  unfold driver.GetContent callCat
  rw [hpath, hcat]

end StoreWrites

theorem walk_error_begins (s : Store) (h : Str) (segs : List Str) (e : Str)
    (ha : s.ancestorsOk h segs = true) (hw : s.walk h segs = .error e) :
    HasPrefix e noLinkNamed = true := by
  induction segs generalizing h with
  | nil => simp [Store.walk] at hw
  | cons x segs ih =>
    simp only [Store.walk] at hw
    simp only [Store.ancestorsOk] at ha
    cases hn : s.getNode h with
    | none => rw [hn] at ha; cases ha
    | some n =>
      rw [hn] at hw ha
      cases n with
      | file d => cases ha
      | dir links =>
        simp only at hw ha
        cases hl : links.lookup x with
        | none =>
          rw [hl] at hw
          simp only [Except.error.injEq] at hw
          rw [← hw]; exact noLinkError_begins _ _
        | some h2 => rw [hl] at hw ha; exact ih h2 ha hw

theorem cleanSeg_ipns : CleanSeg ipns := by decide

theorem fullPath_mkPath (N : Str) (rs ps : List Str) (hN : CleanSeg N)
    (hrs : ∀ s ∈ rs, CleanSeg s) (hps : ∀ s ∈ ps, CleanSeg s) :
    driver.fullPath ⟨mkPath (ipns :: N :: rs)⟩ (mkPath ps) = mkPath (ipns :: N :: (rs ++ ps)) := by
  unfold driver.fullPath
  rw [Join_mkPath (ipns :: N :: rs) ps ?_ hps (by simp)]
  · rfl
  · intro s hs
    simp only [List.mem_cons] at hs
    rcases hs with rfl | rfl | hs
    · exact cleanSeg_ipns
    · exact hN
    · exact hrs s hs

/-- C1, amended: over the store model, with the driver root `/ipns/N/r1/.../rk`
and the logical path `/p1/.../pn` made of non-empty, slash-free elements other
than `.` and `..`, with `N` published and no proper ancestor of the full path a
file or a missing block: `PutContent(p, b)` succeeds and a `GetContent(p)`
right after it returns `b`; and when the object at `p`, if there is one, is a
file (not a directory), `WriteStream(p, 0, b)` succeeds, returns the count 0,
and a `GetContent(p)` right after it returns `b`. -/
theorem write_then_read (N : Str) (rs ps : List Str) (b : Bytes) (fuel : Nat) (w : World Store)
    (r0 : Str) (hN : CleanSeg N) (hrs : ∀ s ∈ rs, CleanSeg s) (hps : ∀ s ∈ ps, CleanSeg s)
    (hr0 : w.st.names.lookup N = some r0) (hanc : w.st.ancestorsOk r0 (rs ++ ps) = true)
    (hfuel : (rs ++ ps).length + 1 ≤ fuel) :
    (∃ w1, driver.PutContent storeShell ⟨mkPath (ipns :: N :: rs)⟩ fuel (mkPath ps) b w
        = (some (.ok ()), w1) ∧
      (driver.GetContent storeShell ⟨mkPath (ipns :: N :: rs)⟩ (mkPath ps) w1).1 = .ok b) ∧
    ((∀ h, w.st.walk r0 (rs ++ ps) = .ok h → ∃ old, w.st.getNode h = some (.file old)) →
      ∃ w1, driver.WriteStream storeShell ⟨mkPath (ipns :: N :: rs)⟩ fuel (mkPath ps) 0 b w
          = (some (0, .ok ()), w1) ∧
        (driver.GetContent storeShell ⟨mkPath (ipns :: N :: rs)⟩ (mkPath ps) w1).1 = .ok b) := by
  have hpath := fullPath_mkPath N rs ps hN hrs hps
  have hfull : ∀ s ∈ rs ++ ps, ValidSeg s := by
    intro s hs
    rcases List.mem_append.1 hs with h | h
    · exact (hrs s h).1
    · exact (hps s h).1
  constructor
  · obtain ⟨w1, r1, hb, hput, hr1, hw, hn⟩ := putContent_store _ (mkPath ps) N (rs ++ ps) hN.1
      hfull hpath b fuel w r0 hr0 hanc hfuel
    exact ⟨w1, hput, getContent_store _ _ N (rs ++ ps) hN.1 hfull hpath w1 r1 hb b hr1 hw hn⟩
  · intro hleaf
    cases hwalk : w.st.walk r0 (rs ++ ps) with
    | error e =>
      obtain ⟨w1, r1, hb, hwr, hr1, hw, hn⟩ := writeStream_store_absent _ (mkPath ps) N (rs ++ ps)
        hN.1 hfull hpath 0 b fuel w r0 e hr0 hwalk (walk_error_begins _ _ _ _ hanc hwalk) hanc hfuel
      exact ⟨w1, hwr, getContent_store _ _ N (rs ++ ps) hN.1 hfull hpath w1 r1 hb b hr1 hw hn⟩
    | ok h =>
      obtain ⟨old, hold⟩ := hleaf h hwalk
      obtain ⟨w1, r1, hb, hwr, hr1, hw, hn⟩ := writeStream_store_file _ (mkPath ps) N (rs ++ ps)
        hN.1 hfull hpath 0 b old fuel w r0 h hr0 hwalk hold (le_refl _) (by simp) hfuel
      refine ⟨w1, hwr, getContent_store _ _ N (rs ++ ps) hN.1 hfull hpath w1 r1 hb b hr1 hw ?_⟩
      simpa using hn

/-- Witness of C1 (amended): `/a/c` does not exist in `dirStore`; putting or
writing it and reading it back returns the bytes. -/
theorem write_then_read_witness :
    (∃ w1, driver.PutContent storeShell ⟨mkPath [ipns, me]⟩ 3 (mkPath [['a'], ['c']]) [7]
        ⟨dirStore, []⟩ = (some (.ok ()), w1) ∧
      (driver.GetContent storeShell ⟨mkPath [ipns, me]⟩ (mkPath [['a'], ['c']]) w1).1 = .ok [7]) ∧
    (∃ w1, driver.WriteStream storeShell ⟨mkPath [ipns, me]⟩ 3 (mkPath [['a'], ['c']]) 0 [7]
        ⟨dirStore, []⟩ = (some (0, .ok ()), w1) ∧
      (driver.GetContent storeShell ⟨mkPath [ipns, me]⟩ (mkPath [['a'], ['c']]) w1).1
        = .ok [7]) := by
  obtain ⟨h1, h2⟩ := write_then_read me [] [['a'], ['c']] [7] 3 ⟨dirStore, []⟩ (hashOf 2)
    (by decide) (by decide) (by decide) (by rfl) (by rfl) (by decide)
  refine ⟨h1, h2 ?_⟩
  intro h hw
  rw [show Store.walk dirStore (hashOf 2) ([] ++ [['a'], ['c']])
    = .error (noLinkError ['c'] (hashOf 1)) from rfl] at hw
  cases hw

/-- Counterexample to C1 as stated: in `dirStore` the name `me` resolves to a
directory and no proper ancestor of `/a` is a file, yet `/a` is a directory,
the store refuses to `Cat` it, and `WriteStream("/a", 0, b)` returns that
error. -/
theorem write_on_directory_fails :
    CleanSeg ['a'] ∧ dirStore.names.lookup me = some (hashOf 2) ∧
      dirStore.getNode (hashOf 2) = some (.dir [(['a'], hashOf 1)]) ∧
      dirStore.ancestorsOk (hashOf 2) [['a']] = true ∧
      (driver.WriteStream storeShell ⟨mkPath [ipns, me]⟩ 2 (mkPath [['a']]) 0 [7]
        ⟨dirStore, []⟩).1 = some (0, .error (.store isDirectoryError)) := by
  refine ⟨by decide, by rfl, by rfl, by rfl, by rfl⟩

/-- In the store model, a write at offset 0 that returns success leaves the
bytes given as the file at the path. -/
theorem writeStream_ok_store (d : driver) (p N : Str) (hN : ValidSeg N) (full : List Str)
    (hfull : ∀ s ∈ full, ValidSeg s)
    (hpath : driver.fullPath d p = mkPath (ipns :: N :: full))
    (nn : Int) (b : Bytes) (fuel : Nat) (w w1 : World Store)
    (h : driver.WriteStream storeShell d fuel p 0 b w = (some (nn, .ok ()), w1)) :
    ∃ r1 hb, w1.st.names.lookup N = some r1 ∧ w1.st.walk r1 full = .ok hb ∧
      w1.st.getNode hb = some (.file b) := by
  have key : ∀ (w0 : World Store) (n0 : Int),
      addAndBubble storeShell fuel (mkPath (ipns :: N :: full)) n0 b w0 = (some (nn, .ok ()), w1) →
      ∃ r1 hb, w1.st.names.lookup N = some r1 ∧ w1.st.walk r1 full = .ok hb ∧
        w1.st.getNode hb = some (.file b) := by
    intro w0 n0 hab
    unfold addAndBubble callAdd at hab
    simp only [storeShell, Store.Add] at hab
    rcases hbub : driver.addBubblePublish storeShell fuel (mkPath (ipns :: N :: full))
      (w0.st.put (.file b)).1
      ⟨(w0.st.put (.file b)).2, Event.add b (.ok (w0.st.put (.file b)).1) :: w0.log⟩
      with ⟨rb, wb⟩
    simp only [storeShell] at hbub
    rw [hbub] at hab
    cases rb with
    | none => simp at hab
    | some err =>
      simp only [Prod.mk.injEq, Option.some.injEq] at hab
      obtain ⟨⟨_, herr⟩, hwb⟩ := hab
      subst herr hwb
      obtain ⟨r1, hr1, hwalk, hle⟩ := bubble_store_ok N hN full hfull _ fuel _ _ hbub
      exact ⟨r1, _, hr1, hwalk, hle _ _ (Store.put_get _ _)⟩
  unfold driver.WriteStream callCat at h
  rw [hpath] at h
  cases hcat : (storeShell.Cat (mkPath (ipns :: N :: full)) w.st).1 with
  | ok old =>
    rw [hcat] at h
    simp only [copyN_zero, List.nil_append] at h
    exact key _ _ h
  | error e =>
    rw [hcat] at h
    simp only at h
    by_cases hp : HasPrefix e noLinkNamed = true
    · simp only [hp, ↓reduceIte] at h
      exact key _ _ h
    · simp [hp] at h

theorem store_names_kept :
    (∀ p s, (storeShell.FileList p s).2.names = s.names) ∧
    (∀ t s, (storeShell.NewObject t s).2.names = s.names) ∧
    (∀ r a args s, (storeShell.Patch r a args s).2.names = s.names) := by
  refine ⟨?_, ?_, ?_⟩
  · intro p s; rw [fileList_state]
  · intro t s
    simp only [storeShell, Store.NewObject]
    split <;> rfl
  · intro r a args s
    simp only [storeShell, Store.Patch]
    cases s.getNode r with
    | none => rfl
    | some n =>
      cases n with
      | file d => simp only; split <;> rfl
      | dir links =>
        simp only
        split
        · split
          · split <;> rfl
          · rfl
        · split
          · split <;> rfl
          · rfl

/-- C4: the bytes `WriteStream` hands to `Add`.  For every shell: when `Cat`
returns the content `old` and `0 ≤ offset ≤ len(old)`, the write is `Add` of
`old[0:offset] ++ new` followed by the bubble pass, and that is the one `Add`
call; when `Cat` fails with an error beginning `no link named`, the bytes are
`new`, whatever the offset.  In the store model (root `/ipns/N/r1/.../rk`, path
of clean elements): after a successful `Write(p, 0, b1)`, `Write(p, len(b1), b2)`
succeeds and leaves `b1 ++ b2` at `p`; and the first write does succeed when
`N` is published, no proper ancestor of `p` is a file and no directory is at
`p`. -/
theorem writeStream_bytes :
    (∀ (σ : Type) (sh : Shell σ) (d : driver) (fuel : Nat) (path : Str) (offset : Int)
      (new old : Bytes) (w : World σ),
      (sh.Cat (driver.fullPath d path) w.st).1 = .ok old → 0 ≤ offset →
      offset ≤ (old.length : Int) →
      driver.WriteStream sh d fuel path offset new w
        = addAndBubble sh fuel (driver.fullPath d path) offset (old.take offset.toNat ++ new)
            ⟨(sh.Cat (driver.fullPath d path) w.st).2,
              Event.cat (driver.fullPath d path) (.ok old) :: w.log⟩ ∧
      (driver.WriteStream sh d fuel path offset new w).2.log.filterMap Event.addContent
        = (old.take offset.toNat ++ new) :: w.log.filterMap Event.addContent) ∧
    (∀ (σ : Type) (sh : Shell σ) (d : driver) (fuel : Nat) (path : Str) (offset : Int)
      (new : Bytes) (e : Str) (w : World σ),
      (sh.Cat (driver.fullPath d path) w.st).1 = .error e → HasPrefix e noLinkNamed = true →
      driver.WriteStream sh d fuel path offset new w
        = addAndBubble sh fuel (driver.fullPath d path) 0 new
            ⟨(sh.Cat (driver.fullPath d path) w.st).2,
              Event.cat (driver.fullPath d path) (.error e) :: w.log⟩ ∧
      (driver.WriteStream sh d fuel path offset new w).2.log.filterMap Event.addContent
        = new :: w.log.filterMap Event.addContent) ∧
    (∀ (N : Str) (rs ps : List Str) (b1 b2 : Bytes) (fuel : Nat) (w w1 : World Store),
      CleanSeg N → (∀ s ∈ rs, CleanSeg s) → (∀ s ∈ ps, CleanSeg s) →
      (rs ++ ps).length + 1 ≤ fuel →
      driver.WriteStream storeShell ⟨mkPath (ipns :: N :: rs)⟩ fuel (mkPath ps) 0 b1 w
        = (some (0, .ok ()), w1) →
      ∃ w2,
        driver.WriteStream storeShell ⟨mkPath (ipns :: N :: rs)⟩ fuel (mkPath ps)
          (b1.length : Int) b2 w1 = (some ((b1.length : Int), .ok ()), w2) ∧
        (driver.GetContent storeShell ⟨mkPath (ipns :: N :: rs)⟩ (mkPath ps) w2).1
          = .ok (b1 ++ b2)) ∧
    (∀ (N : Str) (rs ps : List Str) (b1 : Bytes) (fuel : Nat) (w : World Store) (r0 : Str),
      CleanSeg N → (∀ s ∈ rs, CleanSeg s) → (∀ s ∈ ps, CleanSeg s) →
      w.st.names.lookup N = some r0 → w.st.ancestorsOk r0 (rs ++ ps) = true →
      (∀ h, w.st.walk r0 (rs ++ ps) = .ok h → ∃ old, w.st.getNode h = some (.file old)) →
      (rs ++ ps).length + 1 ≤ fuel →
      ∃ w1,
        driver.WriteStream storeShell ⟨mkPath (ipns :: N :: rs)⟩ fuel (mkPath ps) 0 b1 w
          = (some (0, .ok ()), w1)) := by
  have hvalid : ∀ (rs ps : List Str), (∀ s ∈ rs, CleanSeg s) → (∀ s ∈ ps, CleanSeg s) →
      ∀ s ∈ rs ++ ps, ValidSeg s := by
    intro rs ps hrs hps s hs
    rcases List.mem_append.1 hs with h | h
    · exact (hrs s h).1
    · exact (hps s h).1
  refine ⟨?_, ?_, ?_, ?_⟩
  · intro σ sh d fuel path offset new old w hcat h0 h1
    have hw : driver.WriteStream sh d fuel path offset new w
        = addAndBubble sh fuel (driver.fullPath d path) offset (old.take offset.toNat ++ new)
            ⟨(sh.Cat (driver.fullPath d path) w.st).2,
              Event.cat (driver.fullPath d path) (.ok old) :: w.log⟩ := by
      unfold driver.WriteStream callCat
      rw [hcat]
      simp only [copyN_within old offset h0 h1]
    refine ⟨hw, ?_⟩
    rw [hw, addAndBubble_add]
    simp [Event.addContent]
  · intro σ sh d fuel path offset new e w hcat hpfx
    have hw : driver.WriteStream sh d fuel path offset new w
        = addAndBubble sh fuel (driver.fullPath d path) 0 new
            ⟨(sh.Cat (driver.fullPath d path) w.st).2,
              Event.cat (driver.fullPath d path) (.error e) :: w.log⟩ := by
      unfold driver.WriteStream callCat
      rw [hcat]
      simp only [hpfx, ↓reduceIte]
    refine ⟨hw, ?_⟩
    rw [hw, addAndBubble_add]
    simp [Event.addContent]
  · intro N rs ps b1 b2 fuel w w1 hN hrs hps hfuel hwr1
    have hpath := fullPath_mkPath N rs ps hN hrs hps
    have hfull := hvalid rs ps hrs hps
    obtain ⟨r1, hb, hr1, hw1, hn1⟩ := writeStream_ok_store _ (mkPath ps) N hN.1 (rs ++ ps)
      hfull hpath 0 b1 fuel w w1 hwr1
    obtain ⟨w2, r2, hb2, hwr2, hr2, hw2, hn2⟩ := writeStream_store_file _ (mkPath ps) N (rs ++ ps)
      hN.1 hfull hpath (b1.length : Int) b2 b1 fuel w1 r1 hb hr1 hw1 hn1 (by simp) (le_refl _)
      hfuel
    refine ⟨w2, hwr2, ?_⟩
    refine getContent_store _ _ N (rs ++ ps) hN.1 hfull hpath w2 r2 hb2 _ hr2 hw2 ?_
    simpa using hn2
  · intro N rs ps b1 fuel w r0 hN hrs hps hr0 hanc hleaf hfuel
    have hpath := fullPath_mkPath N rs ps hN hrs hps
    have hfull := hvalid rs ps hrs hps
    cases hwalk : w.st.walk r0 (rs ++ ps) with
    | error e =>
      obtain ⟨w1, _, _, hwr, _⟩ := writeStream_store_absent _ (mkPath ps) N (rs ++ ps) hN.1 hfull
        hpath 0 b1 fuel w r0 e hr0 hwalk (walk_error_begins _ _ _ _ hanc hwalk) hanc hfuel
      exact ⟨w1, hwr⟩
    | ok h =>
      obtain ⟨old, hold⟩ := hleaf h hwalk
      obtain ⟨w1, _, _, hwr, _⟩ := writeStream_store_file _ (mkPath ps) N
        (rs ++ ps) hN.1 hfull hpath 0 b1 old fuel w r0 h hr0 hwalk hold (le_refl _) (by simp)
        hfuel
      exact ⟨w1, hwr⟩

/-- Witness of C4 on the store model: `/a/c` is written with `[7]` at offset 0
and then with `[8, 9]` at offset 1; it holds `[7, 8, 9]`. -/
theorem writeStream_bytes_witness :
    ∃ w2,
      driver.WriteStream storeShell ⟨mkPath [ipns, me]⟩ 3 (mkPath [['a'], ['c']]) 1 [8, 9]
          (driver.WriteStream storeShell ⟨mkPath [ipns, me]⟩ 3 (mkPath [['a'], ['c']]) 0 [7]
            ⟨dirStore, []⟩).2 = (some (1, .ok ()), w2) ∧
        (driver.GetContent storeShell ⟨mkPath [ipns, me]⟩ (mkPath [['a'], ['c']]) w2).1
          = .ok [7, 8, 9] :=
  writeStream_bytes.2.2.1 me [] [['a'], ['c']] [7] [8, 9] 3 ⟨dirStore, []⟩ _ (by decide)
    (by decide) (by decide) (by decide) (by rfl)

/-- Witness of C3 on the store model: nothing is published under `yo`, the
listing of `/ipns/yo` fails with `could not resolve name`, the pass returns
that error, and the published names are what they were. -/
theorem bubble_failure_never_publishes_witness :
    (driver.addBubblePublish storeShell 3 (mkPath [ipns, ['y', 'o'], ['a']]) (hashOf 0)
        demoWorld).1 = some (.error (.store unresolvedName)) ∧
      (driver.addBubblePublish storeShell 3 (mkPath [ipns, ['y', 'o'], ['a']]) (hashOf 0)
        demoWorld).2.st.names = demoStore.names := by
  obtain ⟨L, hL, hfatal, -, hobs⟩ := bubble_failure_never_publishes storeShell 3
    (mkPath [ipns, ['y', 'o'], ['a']]) (hashOf 0) demoWorld
  have hLeq : L = [Event.fileList (mkPath [ipns, ['y', 'o']]) (.error unresolvedName)] := by
    have h1 : (driver.addBubblePublish storeShell 3 (mkPath [ipns, ['y', 'o'], ['a']]) (hashOf 0)
        demoWorld).2.log
        = [Event.fileList (mkPath [ipns, ['y', 'o']]) (.error unresolvedName)] := by rfl
    rw [h1] at hL
    simpa [demoWorld] using hL.symm
  subst hLeq
  obtain ⟨hres, hnopub⟩ := hfatal _ (List.mem_singleton.2 rfl) unresolvedName (by decide)
  exact ⟨hres, hobs _ Store.names store_names_kept.1 store_names_kept.2.1 store_names_kept.2.2
    hnopub⟩

/-! ## The store model: a directory after writes below it -/

theorem Store.walk_error_mono {s t : Store} (hle : s.objLe t) (h : Str) (segs : List Str)
    (e : Str) (hw : s.walk h segs = .error e) (hp : HasPrefix e noLinkNamed = true) :
    t.walk h segs = .error e := by
  induction segs generalizing h with
  | nil => simp [Store.walk] at hw
  | cons x segs ih =>
    simp only [Store.walk] at hw ⊢
    cases hn : s.getNode h with
    | none =>
      rw [hn] at hw
      simp only [Except.error.injEq] at hw
      subst hw
      exact absurd hp (by decide)
    | some n =>
      rw [hn] at hw
      rw [hle h n hn]
      cases n with
      | file d => exact hw
      | dir links =>
        simp only at hw ⊢
        cases hl : links.lookup x with
        | none => rw [hl] at hw; exact hw
        | some h2 => rw [hl] at hw; exact ih h2 hw

/-- In the store model, after a successful bubble pass for `/ipns/N/A/x` the
directory at `/ipns/N/A` holds the links it held before, or none if it did
not exist, with the link `x` replaced by `x → hx`. -/
theorem bubble_store_parent (N : Str) (hN : ValidSeg N) (A : List Str)
    (hA : ∀ s ∈ A, ValidSeg s) (x : Str) (hx : ValidSeg x) (c : Str) (fuel : Nat)
    (w w1 : World Store) (r0 : Str) (hr0 : w.st.names.lookup N = some r0)
    (h : driver.addBubblePublish storeShell fuel (mkPath (ipns :: N :: (A ++ [x]))) c w
      = (some (.ok ()), w1)) :
    ∃ r1 c1 L, w1.st.names.lookup N = some r1 ∧ w1.st.walk r1 A = .ok c1 ∧
      w1.st.getNode c1 = some (.dir (L.filter (fun l => l.1 ≠ x) ++ [(x, c)])) ∧
      w.st.objLe w1.st ∧
      ((∃ hp, w.st.walk r0 A = .ok hp ∧ w.st.getNode hp = some (.dir L)) ∨
        (∃ e, w.st.walk r0 A = .error e ∧ L = [])) := by
  cases fuel with
  | zero => simp [driver.addBubblePublish] at h
  | succ fuel =>
    have hsp := split_mkPath (ipns :: N :: A) x (ipns_path_valid N hN A hA) hx.2
    have hne : TrimRightSlash (Split (mkPath ((ipns :: N :: A) ++ [x]))).1 ≠ ipnsDir := by
      rw [hsp.1]; exact mkPath_ipns_ne N _
    rw [show ipns :: N :: (A ++ [x]) = (ipns :: N :: A) ++ [x] from rfl,
      addBubblePublish_succ storeShell fuel _ c w hne, hsp.1, hsp.2] at h
    obtain ⟨-, -, hinv⟩ := oldParent_store N hN A hA w r0 hr0
    rcases h1 : oldParent storeShell (mkPath (ipns :: N :: A)) w with ⟨ro, w2⟩
    rw [h1] at hinv h
    simp only at hinv h
    cases ro with
    | error e => simp at h
    | ok hp =>
      simp only at h
      obtain ⟨hdir, hrinv⟩ := relink_store hp x c w2
      rcases h2 : relink storeShell hp x c w2 with ⟨r2, w3⟩
      rw [h2] at hdir hrinv h
      simp only at hdir hrinv h
      cases r2 with
      | error e => simp at h
      | ok c1 =>
        simp only at h
        obtain ⟨links, hlinks⟩ := hrinv c1 rfl
        obtain ⟨c2, hc2, hnode, hle2, _⟩ := hdir links hlinks
        simp only [Except.ok.injEq] at hc2
        subst hc2
        obtain ⟨r1, hr1, hwalk, hle3⟩ := bubble_store_ok N hN A hA c1 fuel w3 w1 h
        rcases hinv hp rfl with ⟨n, hw, hn, hst⟩ | ⟨e, hw, hhp, hst⟩
        · rw [hst] at hlinks
          refine ⟨r1, c1, links, hr1, hwalk, hle3 _ _ hnode, ?_, Or.inl ⟨hp, hw, hlinks⟩⟩
          exact Store.objLe_trans (by rw [hst]; exact Store.objLe_refl _)
            (Store.objLe_trans hle2 hle3)
        · have hemp : w2.st.getNode hp = some (.dir []) := by
            rw [hst, hhp]; exact Store.put_get _ _
          rw [hemp] at hlinks
          simp only [Option.some.injEq, Node.dir.injEq] at hlinks
          subst hlinks
          refine ⟨r1, c1, [], hr1, hwalk, hle3 _ _ hnode, ?_, Or.inr ⟨e, hw, rfl⟩⟩
          exact Store.objLe_trans (by rw [hst]; exact Store.put_le _ _)
            (Store.objLe_trans hle2 hle3)

/-- In the store model, after a successful write to `/ipns/N/A/x`, where nothing
was, the directory at `/ipns/N/A` holds its former links, or none if it did
not exist, and the link `x` to the new file. -/
theorem writeStream_new_child (d : driver) (p N : Str) (hN : ValidSeg N) (A : List Str)
    (hA : ∀ s ∈ A, ValidSeg s) (x : Str) (hx : ValidSeg x)
    (hpath : driver.fullPath d p = mkPath (ipns :: N :: (A ++ [x])))
    (offset nn : Int) (new : Bytes) (fuel : Nat) (w w1 : World Store) (r0 e : Str)
    (hr0 : w.st.names.lookup N = some r0)
    (hleaf : w.st.walk r0 (A ++ [x]) = .error e) (hpfx : HasPrefix e noLinkNamed = true)
    (h : driver.WriteStream storeShell d fuel p offset new w = (some (nn, .ok ()), w1)) :
    ∃ r1 c1 hx1 L, w1.st.names.lookup N = some r1 ∧ w1.st.walk r1 A = .ok c1 ∧
      w1.st.getNode c1 = some (.dir (L.filter (fun l => l.1 ≠ x) ++ [(x, hx1)])) ∧
      ((∃ hp, w.st.walk r0 A = .ok hp ∧ w.st.getNode hp = some (.dir L)) ∨
        (∃ e1, w.st.walk r0 A = .error e1 ∧ L = [])) := by
  have hAx : ∀ s ∈ A ++ [x], ValidSeg s := by
    intro s hs
    rcases List.mem_append.1 hs with h1 | h1
    · exact hA s h1
    · rw [List.mem_singleton] at h1; rw [h1]; exact hx
  have hcat := cat_store w.st N hN (A ++ [x]) hAx r0 hr0
  rw [hleaf] at hcat
  simp only at hcat
  unfold driver.WriteStream callCat at h
  rw [hpath, hcat] at h
  simp only [hpfx, ↓reduceIte, addAndBubble, callAdd] at h
  simp only [storeShell, Store.Add] at h
  rcases hb : driver.addBubblePublish storeShell fuel (mkPath (ipns :: N :: (A ++ [x])))
    ((Store.Cat (mkPath (ipns :: N :: (A ++ [x]))) w.st).2.put (.file new)).1
    ⟨((Store.Cat (mkPath (ipns :: N :: (A ++ [x]))) w.st).2.put (.file new)).2,
      Event.add new (.ok ((Store.Cat (mkPath (ipns :: N :: (A ++ [x]))) w.st).2.put
        (.file new)).1) :: Event.cat (mkPath (ipns :: N :: (A ++ [x]))) (.error e) :: w.log⟩
    with ⟨rb, wb⟩
  simp only [storeShell] at hb
  rw [hb] at h
  cases rb with
  | none => simp at h
  | some err =>
    simp only [Prod.mk.injEq, Option.some.injEq] at h
    obtain ⟨⟨_, herr⟩, hwb⟩ := h
    subst herr hwb
    have hcs : (Store.Cat (mkPath (ipns :: N :: (A ++ [x]))) w.st).2 = w.st :=
      cat_state _ _
    rw [hcs] at hb
    have hput := Store.put_le w.st (.file new)
    obtain ⟨r1, c1, L, hr1, hwalk, hnode, -, hold⟩ := bubble_store_parent N hN A hA x hx _ fuel _ _
      r0 (by simpa using hr0) hb
    simp only at hold
    refine ⟨r1, c1, _, L, hr1, hwalk, hnode, ?_⟩
    -- what the parent was before the file was added
    cases hwA : w.st.walk r0 A with
    | error e1 =>
      have hpe : HasPrefix e1 noLinkNamed = true := by
        have := Store.walk_append w.st r0 A [x]
        rw [hwA, hleaf] at this
        simp only [Except.error.injEq] at this
        rw [← this]; exact hpfx
      have hw2 := Store.walk_error_mono hput r0 A e1 hwA hpe
      rcases hold with ⟨hp, hw3, _⟩ | ⟨e2, _, hL⟩
      · rw [hw2] at hw3; cases hw3
      · exact Or.inr ⟨e1, rfl, hL⟩
    | ok hp =>
      have hw2 := Store.walk_mono hput r0 A hp hwA
      rcases hold with ⟨hp2, hw3, hn3⟩ | ⟨e2, hw3, _⟩
      · rw [hw2] at hw3
        simp only [Except.ok.injEq] at hw3
        subst hw3
        refine Or.inl ⟨hp, rfl, ?_⟩
        -- the parent has a link-less object or a directory behind it
        have hstep := Store.walk_append w.st r0 A [x]
        rw [hwA, hleaf] at hstep
        simp only [Store.walk] at hstep
        cases hn : w.st.getNode hp with
        | none =>
          rw [hn] at hstep
          simp only [Except.error.injEq] at hstep
          rw [hstep] at hpfx
          exact absurd hpfx (by decide)
        | some n =>
          have := hput hp n hn
          rw [hn3] at this
          simp only [Option.some.injEq] at this
          rw [this]
      · rw [hw2] at hw3; cases hw3

theorem pathElems_slash : pathElems ['/'] = [] := by decide

theorem fullPath_dirPath (N : Str) (rs as : List Str) (hN : CleanSeg N)
    (hrs : ∀ s ∈ rs, CleanSeg s) (has : ∀ s ∈ as, CleanSeg s) :
    driver.fullPath ⟨mkPath (ipns :: N :: rs)⟩ (dirPath as) = mkPath (ipns :: N :: (rs ++ as)) := by
  by_cases h : as = []
  · subst h
    have hR : ∀ s ∈ ipns :: N :: rs, CleanSeg s := by
      intro s hs
      simp only [List.mem_cons] at hs
      rcases hs with rfl | rfl | hs
      · exact cleanSeg_ipns
      · exact hN
      · exact hrs s hs
    have hv : ∀ s ∈ ipns :: N :: rs, ValidSeg s := fun s hs => (hR s hs).1
    have hj : driver.fullPath ⟨mkPath (ipns :: N :: rs)⟩ (dirPath [])
        = Clean (mkPath (ipns :: N :: rs) ++ '/' :: ['/']) := by
      simp [driver.fullPath, dirPath, Join, List.filter, mkPath]
    rw [hj]
    have he : pathElems (mkPath (ipns :: N :: rs) ++ '/' :: ['/']) = ipns :: N :: rs := by
      rw [pathElems_append_slash, pathElems_mkPath _ hv, pathElems_slash]; simp
    have hc := Clean_rooted ((ipns ++ mkPath (N :: rs)) ++ '/' :: ['/'])
      (by
        rw [show '/' :: ((ipns ++ mkPath (N :: rs)) ++ '/' :: ['/'])
            = mkPath (ipns :: N :: rs) ++ '/' :: ['/'] from rfl, splitSlash_append_slash]
        intro e hmem
        rcases List.mem_append.1 hmem with h1 | h1
        · exact splitSlash_mkPath_clean _ hR e h1
        · left
          have : splitSlash ['/'] = [[], []] := by decide
          rw [this] at h1
          simpa using h1)
      (by
        rw [show '/' :: ((ipns ++ mkPath (N :: rs)) ++ '/' :: ['/'])
            = mkPath (ipns :: N :: rs) ++ '/' :: ['/'] from rfl, he]
        simp)
    rw [show '/' :: ((ipns ++ mkPath (N :: rs)) ++ '/' :: ['/'])
        = mkPath (ipns :: N :: rs) ++ '/' :: ['/'] from rfl, he] at hc
    simpa using hc
  · simp only [dirPath, h, ↓reduceIte]
    exact fullPath_mkPath N rs as hN hrs has

theorem Join_dirPath (as : List Str) (x : Str) (has : ∀ s ∈ as, CleanSeg s) (hx : CleanSeg x) :
    Join [dirPath as, x] = mkPath (as ++ [x]) := by
  by_cases h : as = []
  · subst h
    have hj : Join [dirPath [], x] = Clean ('/' :: '/' :: x) := by
      simp [dirPath, Join, List.filter, hx.1.1, mkPath]
    rw [hj]
    have hsx : splitSlash x = [x] := splitSlash_no_slash x hx.1.2
    have hs : splitSlash ('/' :: '/' :: x) = [[], [], x] := by
      rw [splitSlash_cons_slash, splitSlash_cons_slash, hsx]
    have he : pathElems ('/' :: '/' :: x) = [x] := by
      simp [pathElems, hs, hx.1.1]
    have hc := Clean_rooted ('/' :: x)
      (by
        rw [hs]
        intro e hmem
        simp only [List.mem_cons, List.mem_singleton, List.not_mem_nil, or_false] at hmem
        rcases hmem with h1 | h1 | h1
        · left; exact h1
        · left; exact h1
        · right; rw [h1]; exact hx.2)
      (by rw [he]; simp)
    rw [he] at hc
    simpa using hc
  · simp only [dirPath, h, ↓reduceIte]
    exact Join_name as x has hx h

theorem fileList_store (s : Store) (N : Str) (hN : ValidSeg N) (A : List Str)
    (hA : ∀ t ∈ A, ValidSeg t) :
    (storeShell.FileList (mkPath (ipns :: N :: A)) s).1 =
      match s.names.lookup N with
      | none => .error unresolvedName
      | some r =>
        match s.walk r A with
        | .error e => .error e
        | .ok h =>
          match s.getNode h with
          | none => .error blockNotFound
          | some (.file data) => .ok ⟨h, data.length, fileType, []⟩
          | some (.dir links) => .ok ⟨h, 0, directoryType, links.map s.linkInfo⟩ := by
  have hres := resolve_ipns s N hN A hA
  simp only [storeShell, Store.FileList, hres]
  cases s.names.lookup N with
  | none => rfl
  | some r =>
    simp only
    cases s.walk r A with
    | error e => rfl
    | ok h =>
      simp only
      cases s.getNode h with
      | none => rfl
      | some n => cases n <;> rfl

theorem linkInfo_name (s : Store) (l : Str × Str) : (s.linkInfo l).Name = l.1 := by
  unfold Store.linkInfo
  cases s.getNode l.2 with
  | none => rfl
  | some n => cases n <;> rfl

/-- In the store model `Stat` answers `PathNotFoundError` only when the name is
published and the walk to the path ends at a missing link. -/
theorem stat_notFound_store (d : driver) (p N : Str) (hN : ValidSeg N) (A : List Str)
    (hA : ∀ t ∈ A, ValidSeg t) (hpath : driver.fullPath d p = mkPath (ipns :: N :: A))
    (w : World Store) (h : (driver.Stat storeShell d p w).1 = .error (.pathNotFound p)) :
    ∃ r0 e, w.st.names.lookup N = some r0 ∧ w.st.walk r0 A = .error e ∧
      HasPrefix e noLinkNamed = true := by
  have hfl := fileList_store w.st N hN A hA
  unfold driver.Stat callFileList at h
  rw [hpath, hfl] at h
  cases hl : w.st.names.lookup N with
  | none =>
    rw [hl] at h
    have : HasPrefix unresolvedName noLinkNamed = false := by decide
    simp [this] at h
  | some r0 =>
    rw [hl] at h
    simp only at h
    cases hw : w.st.walk r0 A with
    | error e =>
      rw [hw] at h
      simp only at h
      by_cases hp : HasPrefix e noLinkNamed = true
      · exact ⟨r0, e, rfl, hw, hp⟩
      · simp [hp] at h
    | ok hh =>
      rw [hw] at h
      simp only at h
      cases hn : w.st.getNode hh with
      | none =>
        rw [hn] at h
        have : HasPrefix blockNotFound noLinkNamed = false := by decide
        simp [this] at h
      | some n =>
        rw [hn] at h
        cases n <;> simp at h

/-- C6: over the store model, with the driver root `/ipns/N/r1/.../rk`, a
directory path `a` (elements `as`, `/` when there are none) at which `Stat`
finds nothing, and two distinct names `b` and `c`: after a successful write to
`a/b` and then a successful write to `a/c`, `List(a)` returns the two paths
`a/b` and `a/c` and nothing else, and `Stat(a)` reports a directory. -/
theorem list_reflects_writes (N : Str) (rs as : List Str) (b c : Str) (o1 o2 n1 n2 : Int)
    (x1 x2 : Bytes) (fuel : Nat) (w w1 w2 : World Store)
    (hN : CleanSeg N) (hrs : ∀ s ∈ rs, CleanSeg s) (has : ∀ s ∈ as, CleanSeg s)
    (hb : CleanSeg b) (hc : CleanSeg c) (hbc : b ≠ c)
    (hnothing : (driver.Stat storeShell ⟨mkPath (ipns :: N :: rs)⟩ (dirPath as) w).1
      = .error (.pathNotFound (dirPath as)))
    (hw1 : driver.WriteStream storeShell ⟨mkPath (ipns :: N :: rs)⟩ fuel (mkPath (as ++ [b]))
      o1 x1 w = (some (n1, .ok ()), w1))
    (hw2 : driver.WriteStream storeShell ⟨mkPath (ipns :: N :: rs)⟩ fuel (mkPath (as ++ [c]))
      o2 x2 w1 = (some (n2, .ok ()), w2)) :
    (driver.List storeShell ⟨mkPath (ipns :: N :: rs)⟩ (dirPath as) w2).1
        = .ok [mkPath (as ++ [b]), mkPath (as ++ [c])] ∧
      ∃ fi, (driver.Stat storeShell ⟨mkPath (ipns :: N :: rs)⟩ (dirPath as) w2).1 = .ok fi ∧
        fi.IsDir = true := by
  have hA : ∀ s ∈ rs ++ as, ValidSeg s := by
    intro s hs
    rcases List.mem_append.1 hs with h | h
    · exact (hrs s h).1
    · exact (has s h).1
  have hfa := fullPath_dirPath N rs as hN hrs has
  have hchild : ∀ x, CleanSeg x → driver.fullPath ⟨mkPath (ipns :: N :: rs)⟩ (mkPath (as ++ [x]))
      = mkPath (ipns :: N :: ((rs ++ as) ++ [x])) := by
    intro x hx
    rw [fullPath_mkPath N rs (as ++ [x]) hN hrs ?_, List.append_assoc]
    intro s hs
    rcases List.mem_append.1 hs with h | h
    · exact has s h
    · rw [List.mem_singleton] at h; rw [h]; exact hx
  -- nothing at `a`
  obtain ⟨r0, e, hr0, hwA, hpfx⟩ := stat_notFound_store _ _ N hN.1 (rs ++ as) hA hfa w hnothing
  -- the first write creates `a` with the link `b`
  have hleaf1 : w.st.walk r0 ((rs ++ as) ++ [b]) = .error e := by
    rw [Store.walk_append, hwA]
  obtain ⟨r1, c1, hb1, L1, hr1, hwalk1, hnode1, hold1⟩ := writeStream_new_child _ _ N hN.1
    (rs ++ as) hA b hb.1 (hchild b hb) o1 n1 x1 fuel w w1 r0 e hr0 hleaf1 hpfx hw1
  have hL1 : L1 = [] := by
    rcases hold1 with ⟨hp, hw3, _⟩ | ⟨e1, _, hL⟩
    · rw [hwA] at hw3; cases hw3
    · exact hL
  subst hL1
  simp only [List.filter_nil, List.nil_append] at hnode1
  -- the second write adds the link `c`
  have hcb : (c == b) = false := by simpa using fun h => hbc h.symm
  have hleaf2 : w1.st.walk r1 ((rs ++ as) ++ [c]) = .error (noLinkError c c1) := by
    rw [Store.walk_append, hwalk1]
    simp [Store.walk, hnode1, List.lookup, hcb]
  obtain ⟨r2, c2, hc2, L2, hr2, hwalk2, hnode2, hold2⟩ := writeStream_new_child _ _ N hN.1
    (rs ++ as) hA c hc.1 (hchild c hc) o2 n2 x2 fuel w1 w2 r1 _ hr1 hleaf2
    (noLinkError_begins _ _) hw2
  have hL2 : L2 = [(b, hb1)] := by
    rcases hold2 with ⟨hp, hw3, hn3⟩ | ⟨e1, hw3, _⟩
    · rw [hwalk1] at hw3
      simp only [Except.ok.injEq] at hw3
      subst hw3
      rw [hnode1] at hn3
      simp only [Option.some.injEq, Node.dir.injEq] at hn3
      exact hn3.symm
    · rw [hwalk1] at hw3; cases hw3
  subst hL2
  have hfilter : List.filter (fun l : Str × Str => decide (l.1 ≠ c)) [(b, hb1)] = [(b, hb1)] := by
    simp [List.filter, hbc]
  rw [hfilter] at hnode2
  -- listing `a`
  have hfl := fileList_store w2.st N hN.1 (rs ++ as) hA
  rw [hr2] at hfl
  simp only [hwalk2, hnode2] at hfl
  constructor
  · unfold driver.List callFileList
    rw [hfa, hfl]
    simp only [List.cons_append, List.nil_append, List.map_cons, List.map_nil, linkInfo_name]
    rw [Join_dirPath as b has hb, Join_dirPath as c has hc]
  · unfold driver.Stat callFileList
    rw [hfa, hfl]
    exact ⟨_, rfl, by simp⟩

/-- Witness of C6: writing `/a/b` and `/a/c` into a store whose published root
is an empty directory; `/a` is then a directory listing both. -/
theorem list_reflects_writes_witness :
    (driver.List storeShell ⟨mkPath [ipns, me]⟩ (dirPath [['a']])
        (driver.WriteStream storeShell ⟨mkPath [ipns, me]⟩ 3 (mkPath [['a'], ['c']]) 0 [2]
          (driver.WriteStream storeShell ⟨mkPath [ipns, me]⟩ 3 (mkPath [['a'], ['b']]) 0 [1]
            demoWorld).2).2).1
        = .ok [mkPath [['a'], ['b']], mkPath [['a'], ['c']]] ∧
      ∃ fi, (driver.Stat storeShell ⟨mkPath [ipns, me]⟩ (dirPath [['a']])
        (driver.WriteStream storeShell ⟨mkPath [ipns, me]⟩ 3 (mkPath [['a'], ['c']]) 0 [2]
          (driver.WriteStream storeShell ⟨mkPath [ipns, me]⟩ 3 (mkPath [['a'], ['b']]) 0 [1]
            demoWorld).2).2).1 = .ok fi ∧ fi.IsDir = true :=
  list_reflects_writes me [] [['a']] ['b'] ['c'] 0 0 0 0 [1] [2] 3 demoWorld _ _
    (by decide) (by decide) (by decide) (by decide) (by decide) (by decide) (by rfl) (by rfl)
    (by rfl)

section Abstract
variable {σ : Type} (sh : Shell σ)

/-- On a `no link named` error of the store, `GetContent`, `Stat`, `List` and
`Delete` answer `PathNotFoundError` with the caller's path. -/
theorem not_found_translated (d : driver) (path e : Str) (fuel : Nat) (w : World σ)
    (hpfx : HasPrefix e noLinkNamed = true) :
    ((sh.Cat (driver.fullPath d path) w.st).1 = .error e →
      (driver.GetContent sh d path w).1 = .error (.pathNotFound path)) ∧
    ((sh.FileList (driver.fullPath d path) w.st).1 = .error e →
      (driver.Stat sh d path w).1 = .error (.pathNotFound path) ∧
      (driver.List sh d path w).1 = .error (.pathNotFound path)) ∧
    ((sh.FileList (Split (driver.fullPath d path)).1 w.st).1 = .error e →
      (driver.Delete sh d fuel path w).1 = some (.error (.pathNotFound path))) := by
  refine ⟨?_, ?_, ?_⟩
  · intro h
    simp [driver.GetContent, callCat, h, hpfx]
  · intro h
    simp [driver.Stat, driver.List, callFileList, h, hpfx]
  · intro h
    simp [driver.Delete, callFileList, h, hpfx]

/-- On any error of `Cat`, `ReadStream` returns that error as it is. -/
theorem readStream_cat_error (d : driver) (path e : Str) (offset : Int) (w : World σ)
    (h : (sh.Cat (driver.fullPath d path) w.st).1 = .error e) :
    (driver.ReadStream sh d path offset w).1 = .error (.store e) := by
  simp [driver.ReadStream, callCat, h]

end Abstract

/-- C9, the failing case: nothing is at `/x` in `demoStore`; the store reports
`no link named "x" under Qm`, `GetContent` turns that into
`PathNotFoundError{/x}`, and `ReadStream` returns the store's error itself. -/
theorem readStream_not_found_is_store_error :
    (storeShell.Cat (driver.fullPath demoDriver (mkPath [['x']])) demoStore).1
        = .error (noLinkError ['x'] (hashOf 0)) ∧
      HasPrefix (noLinkError ['x'] (hashOf 0)) noLinkNamed = true ∧
      (driver.GetContent storeShell demoDriver (mkPath [['x']]) demoWorld).1
        = .error (.pathNotFound (mkPath [['x']])) ∧
      (driver.ReadStream storeShell demoDriver (mkPath [['x']]) 0 demoWorld).1
        = .error (.store (noLinkError ['x'] (hashOf 0))) := by
  refine ⟨by rfl, by rfl, by rfl, by rfl⟩

/-- C8, the failing case: `/a/b` is a file in `dirStore`.  `Delete("/a/b")`
hands `addBubblePublish` the parent path with its trailing slash,
`/ipns/me/a/`, whose last element is empty, so the pass links the rewritten
parent under the empty name inside the old parent.  The delete returns
success, `/a/b` is still there and a second delete succeeds again. -/
theorem delete_keeps_the_link :
    Split (driver.fullPath demoDriver (mkPath [['a'], ['b']]))
        = (mkPath [ipns, me, ['a']] ++ ['/'], ['b']) ∧
      Split (mkPath [ipns, me, ['a']] ++ ['/']) = (mkPath [ipns, me, ['a']] ++ ['/'], []) ∧
      (driver.Delete storeShell demoDriver 3 (mkPath [['a'], ['b']]) ⟨dirStore, []⟩).1
        = some (.ok ()) ∧
      (driver.Stat storeShell demoDriver (mkPath [['a'], ['b']])
        (driver.Delete storeShell demoDriver 3 (mkPath [['a'], ['b']]) ⟨dirStore, []⟩).2).1
        = .ok ⟨mkPath [['a'], ['b']], 1, 0, false⟩ ∧
      (driver.Delete storeShell demoDriver 3 (mkPath [['a'], ['b']])
        (driver.Delete storeShell demoDriver 3 (mkPath [['a'], ['b']]) ⟨dirStore, []⟩).2).1
        = some (.ok ()) := by
  refine ⟨by rfl, by rfl, by rfl, by rfl, by rfl⟩

/-- C7, the failing case: `/a/b` is a file with content `[1]` in `dirStore`.
`Move("/a/b", "/x/y")` returns success and `/x/y` has the content, but the
pass that should drop the source is given the parent path with its trailing
slash and links the rewritten parent under the empty name instead, so
`Stat("/a/b")` still succeeds. -/
theorem move_keeps_the_source :
    (driver.GetContent storeShell demoDriver (mkPath [['a'], ['b']]) ⟨dirStore, []⟩).1
        = .ok [1] ∧
      (driver.Move storeShell demoDriver 3 (mkPath [['a'], ['b']]) (mkPath [['x'], ['y']])
        ⟨dirStore, []⟩).1 = some (.ok ()) ∧
      (driver.GetContent storeShell demoDriver (mkPath [['x'], ['y']])
        (driver.Move storeShell demoDriver 3 (mkPath [['a'], ['b']]) (mkPath [['x'], ['y']])
          ⟨dirStore, []⟩).2).1 = .ok [1] ∧
      (driver.Stat storeShell demoDriver (mkPath [['a'], ['b']])
        (driver.Move storeShell demoDriver 3 (mkPath [['a'], ['b']]) (mkPath [['x'], ['y']])
          ⟨dirStore, []⟩).2).1 = .ok ⟨mkPath [['a'], ['b']], 1, 0, false⟩ := by
  refine ⟨by rfl, by rfl, by rfl, by rfl⟩

/-- Witness of C5: `/a/b` holds one byte in `dirStore`; a write at offset 5
returns `(0, EOF)` after the `Cat` alone. -/
theorem writeStream_offset_beyond_witness :
    (driver.WriteStream storeShell demoDriver 3 (mkPath [['a'], ['b']]) 5 [9]
        ⟨dirStore, []⟩).1 = some (0, .error .eof) ∧
      (driver.WriteStream storeShell demoDriver 3 (mkPath [['a'], ['b']]) 5 [9]
        ⟨dirStore, []⟩).2.log
        = Event.cat (driver.fullPath demoDriver (mkPath [['a'], ['b']])) (.ok [1]) :: [] ∧
      (driver.WriteStream storeShell demoDriver 3 (mkPath [['a'], ['b']]) 5 [9]
        ⟨dirStore, []⟩).2.st
        = (storeShell.Cat (driver.fullPath demoDriver (mkPath [['a'], ['b']])) dirStore).2 ∧
      ∀ (p : Str) (s : Store), (storeShell.Cat p s).2 = s :=
  writeStream_offset_beyond storeShell demoDriver 3 (mkPath [['a'], ['b']]) 5 [9] [1]
    ⟨dirStore, []⟩ (by rfl) (by decide)

/-- Witness of C10 on the store model, whose identity is `me`: the root
`/ipns/local/reg` becomes `/ipns/me/reg`. -/
theorem New_spec_witness :
    (New storeShell [] (ipnsLocalPrefix ++ ['r', 'e', 'g']) demoWorld).1
      = some ⟨ipnsPrefix ++ (me ++ '/' :: ['r', 'e', 'g'])⟩ :=
  (New_spec storeShell [] (ipnsLocalPrefix ++ ['r', 'e', 'g']) demoWorld).2.1
    ['r', 'e', 'g'] me rfl rfl

end Ipfs
